import Mathlib

/-!
Verification of the streaming protocol translation engine of the
z.ai2api_deno proxy: a shallow embedding of the SSE event decoder
(`SSEParser.iterEvents`), the tool-invocation extractor
(`extractToolInvocations`), the stripping counterpart
(`removeToolJsonContent`), the thinking-content transformer
(`transformThinkingContent`) and the two response assemblers
(`StreamResponseHandler.handle`, `NonStreamResponseHandler.handle`),
together with theorems settling the specification claims about them.

Modelling conventions:
* strings are sequences of Unicode scalar values (`List Char`), wrapped in
  `String` at API boundaries; the incoming network stream is a sequence of
  bytes (`List Nat`) decoded by a model of the WHATWG streaming UTF-8
  decoder (`TextDecoder` with `stream: true`);
* JSON numeric literals are modelled as integers (`JSON.parse` of a
  fraction or exponent is treated as a parse failure; IEEE-754 float
  behaviour is outside the embedding). All theorems below are either
  structural or conditional on parser outcomes, so this restriction only
  narrows the set of inputs a witness can use;
* `Date.now()` is modelled as an explicit `now : Nat` parameter, and the
  emitted OpenAI chunk lines (whose ids and timestamps derive from it) are
  abstracted to their payload structure (`OutLine`);
* a thrown JavaScript exception is modelled as `Except.error ()`.
-/

namespace Zai

/-- Whitespace class of the JavaScript regex `\s` and of
`String.prototype.trim`: tab, LF, VT, FF, CR, space, NBSP, the Zs
category (U+1680, U+2000..U+200A, U+202F, U+205F, U+3000), the LS/PS line
separators and the BOM. -/
def jsWs (c : Char) : Bool :=
  c = ' ' || c = '\t' || c = '\n' || c = '\r' ||
  c = Char.ofNat 11 || c = Char.ofNat 12 || c = Char.ofNat 160 ||
  c = Char.ofNat 0x1680 || (0x2000 ≤ c.toNat && c.toNat ≤ 0x200A) ||
  c = Char.ofNat 0x2028 || c = Char.ofNat 0x2029 || c = Char.ofNat 0x202F ||
  c = Char.ofNat 0x205F || c = Char.ofNat 0x3000 || c = Char.ofNat 0xFEFF

/-- The ECMA-262 LineTerminator set, after which the multiline `^`
matches: LF, CR, LS (U+2028), PS (U+2029). -/
def jsLineTerm (c : Char) : Bool :=
  c = '\n' || c = '\r' || c = Char.ofNat 0x2028 || c = Char.ofNat 0x2029

/-- Whitespace accepted between tokens by `JSON.parse` (RFC 8259). -/
def jsonWs (c : Char) : Bool :=
  c = ' ' || c = '\t' || c = '\n' || c = '\r'

/-- Model of `String.prototype.trim`. -/
def trimL (l : List Char) : List Char :=
  ((l.dropWhile jsWs).reverse.dropWhile jsWs).reverse

def skipWs (l : List Char) : List Char := l.dropWhile jsonWs

/-- Split a list around the first occurrence of `pat`:
`splitFirst pat l = some (pre, post)` means `l = pre ++ pat ++ post` and no
occurrence of `pat` starts inside `pre`. -/
def splitFirst (pat : List Char) : List Char → Option (List Char × List Char)
  | [] => if pat = [] then some ([], []) else none
  | c :: rest =>
    if pat.isPrefixOf (c :: rest) then some ([], (c :: rest).drop pat.length)
    else
      match splitFirst pat rest with
      | some (pre, post) => some (c :: pre, post)
      | none => none

def containsSub (pat l : List Char) : Bool := (splitFirst pat l).isSome

/-- Model of `String.prototype.replace` with a global literal pattern:
non-overlapping left-to-right replacement, never rescanning the
replacement text.  `fuel` bounds the recursion; `l.length + 1` is always
enough for a non-empty pattern. -/
def replaceSub : Nat → List Char → List Char → List Char → List Char
  | 0, _, _, l => l
  | fuel + 1, pat, rep, l =>
    match splitFirst pat l with
    | none => l
    | some (pre, post) => pre ++ rep ++ replaceSub fuel pat rep post

/-- Model of `String.prototype.split` with a literal separator (used for
`editContent.split("</details>")`). -/
def splitOnSub : Nat → List Char → List Char → List (List Char)
  | 0, _, l => [l]
  | fuel + 1, pat, l =>
    match splitFirst pat l with
    | none => [l]
    | some (pre, post) => pre :: splitOnSub fuel pat post

/-- Split on the newline character, keeping empty segments, exactly as
`buffer.split("\n")` does. -/
def splitNl : List Char → List (List Char)
  | [] => [[]]
  | c :: rest =>
    if c = '\n' then [] :: splitNl rest
    else
      match splitNl rest with
      | [] => [[c]]
      | s :: ss => (c :: s) :: ss

def joinNl : List (List Char) → List Char
  | [] => []
  | [x] => x
  | x :: xs => x ++ '\n' :: joinNl xs

def strOfList (l : List Char) : String := String.mk l

def consHead (p : List Char) : List (List Char) → List (List Char)
  | [] => [p]
  | h :: t => (p ++ h) :: t

/-! ## JSON values, `JSON.parse` and `JSON.stringify` -/

/-- JSON values as produced by `JSON.parse` (numbers restricted to
integers, see the header). Objects are duplicate-free association lists in
insertion order, as `JSON.parse` builds them. -/
inductive Json where
  | null
  | bool (b : Bool)
  | num (n : Int)
  | str (s : String)
  | arr (elems : List Json)
  | obj (fields : List (String × Json))

/-- Property write on a JS object literal: an existing key keeps its
position and gets the new value, a fresh key is appended. -/
def objInsert (k : String) (v : Json) : List (String × Json) → List (String × Json)
  | [] => [(k, v)]
  | (k2, v2) :: rest =>
    if k2 = k then (k, v) :: rest else (k2, v2) :: objInsert k v rest

/-- JS property read `o[k]`: `none` models `undefined` (also for any
non-object receiver). -/
def objGetJs (j : Json) (k : String) : Option Json :=
  match j with
  | .obj kvs => kvs.lookup k
  | _ => none

/-- JS property write `o[k] = v` (identity on non-objects; only reached on
objects in the modelled code). -/
def objSet (j : Json) (k : String) (v : Json) : Json :=
  match j with
  | .obj kvs => .obj (objInsert k v kvs)
  | other => other

/-- JavaScript truthiness of a parsed JSON value. -/
def jsTruthy : Json → Bool
  | .null => false
  | .bool b => b
  | .num n => n ≠ 0
  | .str s => s ≠ ""
  | .arr _ => true
  | .obj _ => true

def isStrJson : Json → Bool
  | .str _ => true
  | _ => false

def isArrJson : Json → Bool
  | .arr _ => true
  | _ => false

def hexVal (c : Char) : Option Nat :=
  if '0' ≤ c ∧ c ≤ '9' then some (c.toNat - 48)
  else if 'a' ≤ c ∧ c ≤ 'f' then some (c.toNat - 87)
  else if 'A' ≤ c ∧ c ≤ 'F' then some (c.toNat - 55)
  else none

def digitsVal (ds : List Char) : Nat :=
  ds.foldl (fun acc c => acc * 10 + (c.toNat - 48)) 0

/-- Body of a JSON string literal, after the opening quote: returns the
decoded characters and the remainder after the closing quote. `\uXXXX`
surrogate pairs are combined; a lone surrogate (not representable as a
scalar value) decodes to U+0000, the boundary of the embedding. -/
def parseJStr : Nat → List Char → Option (List Char × List Char)
  | 0, _ => none
  | fuel + 1, l =>
    match l with
    | [] => none
    | c :: rest =>
      if c = '"' then some ([], rest)
      else if c = '\\' then
        match rest with
        | [] => none
        | e :: rest2 =>
          if e = 'u' then
            match rest2 with
            | h1 :: h2 :: h3 :: h4 :: rest3 =>
              match hexVal h1, hexVal h2, hexVal h3, hexVal h4 with
              | some a, some b, some cc, some d =>
                let n := ((a * 16 + b) * 16 + cc) * 16 + d
                if 0xD800 ≤ n ∧ n ≤ 0xDBFF then
                  match rest3 with
                  | '\\' :: 'u' :: g1 :: g2 :: g3 :: g4 :: rest4 =>
                    match hexVal g1, hexVal g2, hexVal g3, hexVal g4 with
                    | some a2, some b2, some c2, some d2 =>
                      let n2 := ((a2 * 16 + b2) * 16 + c2) * 16 + d2
                      if 0xDC00 ≤ n2 ∧ n2 ≤ 0xDFFF then
                        let cp := 0x10000 + (n - 0xD800) * 0x400 + (n2 - 0xDC00)
                        match parseJStr fuel rest4 with
                        | some (s, r) => some (Char.ofNat cp :: s, r)
                        | none => none
                      else
                        match parseJStr fuel rest3 with
                        | some (s, r) => some (Char.ofNat n :: s, r)
                        | none => none
                    | _, _, _, _ =>
                      match parseJStr fuel rest3 with
                      | some (s, r) => some (Char.ofNat n :: s, r)
                      | none => none
                  | _ =>
                    match parseJStr fuel rest3 with
                    | some (s, r) => some (Char.ofNat n :: s, r)
                    | none => none
                else
                  match parseJStr fuel rest3 with
                  | some (s, r) => some (Char.ofNat n :: s, r)
                  | none => none
              | _, _, _, _ => none
            | _ => none
          else
            let ec : Option Char :=
              if e = '"' then some '"'
              else if e = '\\' then some '\\'
              else if e = '/' then some '/'
              else if e = 'b' then some (Char.ofNat 8)
              else if e = 'f' then some (Char.ofNat 12)
              else if e = 'n' then some '\n'
              else if e = 'r' then some '\r'
              else if e = 't' then some '\t'
              else none
            match ec with
            | some ech =>
              match parseJStr fuel rest2 with
              | some (s, r) => some (ech :: s, r)
              | none => none
            | none => none
      else if c.toNat < 32 then none
      else
        match parseJStr fuel rest with
        | some (s, r) => some (c :: s, r)
        | none => none

/-- JSON number literal (integer grammar; fraction or exponent fails, see
the header). Rejects leading zeros as `JSON.parse` does. -/
def parseJNum (l : List Char) : Option (Int × List Char) :=
  let signed : Bool × List Char :=
    match l with
    | c :: rest => if c = '-' then (true, rest) else (false, l)
    | [] => (false, l)
  let neg := signed.1
  match signed.2 with
  | [] => none
  | c :: rest =>
    if c = '0' then
      match rest with
      | d :: _ =>
        if d.isDigit || d = '.' || d = 'e' || d = 'E' then none
        else some (0, rest)
      | [] => some (0, [])
    else if c.isDigit then
      let ds := (c :: rest).takeWhile Char.isDigit
      let rest2 := (c :: rest).dropWhile Char.isDigit
      match rest2 with
      | d :: _ =>
        if d = '.' || d = 'e' || d = 'E' then none
        else some (if neg then -(Int.ofNat (digitsVal ds)) else Int.ofNat (digitsVal ds), rest2)
      | [] =>
        some (if neg then -(Int.ofNat (digitsVal ds)) else Int.ofNat (digitsVal ds), [])
    else none

mutual

/-- JSON value at the head of `l` (no leading whitespace). -/
def parseJVal : Nat → List Char → Option (Json × List Char)
  | 0, _ => none
  | fuel + 1, l =>
    match l with
    | [] => none
    | c :: rest =>
      if c = '"' then
        match parseJStr (rest.length + 1) rest with
        | some (s, r) => some (.str (strOfList s), r)
        | none => none
      else if c = '\x7b' then
        match skipWs rest with
        | '\x7d' :: r => some (.obj [], r)
        | other => parseJObj fuel [] other
      else if c = '[' then
        match skipWs rest with
        | ']' :: r => some (.arr [], r)
        | other => parseJArr fuel [] other
      else if (String.toList "true").isPrefixOf l then some (.bool true, l.drop 4)
      else if (String.toList "false").isPrefixOf l then some (.bool false, l.drop 5)
      else if (String.toList "null").isPrefixOf l then some (.null, l.drop 4)
      else if c = '-' || c.isDigit then
        match parseJNum l with
        | some (n, r) => some (.num n, r)
        | none => none
      else none

/-- Object members from the first key onward (duplicate keys overwrite in
place, as JS object construction does). -/
def parseJObj : Nat → List (String × Json) → List Char → Option (Json × List Char)
  | 0, _, _ => none
  | fuel + 1, acc, l =>
    match l with
    | '"' :: rest =>
      match parseJStr (rest.length + 1) rest with
      | some (k, r1) =>
        match skipWs r1 with
        | ':' :: r2 =>
          match parseJVal fuel (skipWs r2) with
          | some (v, r3) =>
            let acc2 := objInsert (strOfList k) v acc
            match skipWs r3 with
            | ',' :: r4 => parseJObj fuel acc2 (skipWs r4)
            | '\x7d' :: r4 => some (.obj acc2, r4)
            | _ => none
          | none => none
        | _ => none
      | none => none
    | _ => none

def parseJArr : Nat → List Json → List Char → Option (Json × List Char)
  | 0, _, _ => none
  | fuel + 1, acc, l =>
    match parseJVal fuel l with
    | some (v, r1) =>
      match skipWs r1 with
      | ',' :: r2 => parseJArr fuel (acc ++ [v]) (skipWs r2)
      | ']' :: r2 => some (.arr (acc ++ [v]), r2)
      | _ => none
    | none => none

end

/-- Model of `JSON.parse` on a whole text: `none` models a thrown
`SyntaxError` (always caught in the modelled code). -/
def jsonParseL (l : List Char) : Option Json :=
  match parseJVal (l.length + 1) (skipWs l) with
  | some (v, rest) => if skipWs rest = [] then some v else none
  | none => none

def escapeJsonChar (c : Char) : List Char :=
  if c = '"' then ['\\', '"']
  else if c = '\\' then ['\\', '\\']
  else if c = '\n' then ['\\', 'n']
  else if c = '\r' then ['\\', 'r']
  else if c = '\t' then ['\\', 't']
  else if c = Char.ofNat 8 then ['\\', 'b']
  else if c = Char.ofNat 12 then ['\\', 'f']
  else if c.toNat < 32 then
    let hx := fun (n : Nat) => if n < 10 then Char.ofNat (48 + n) else Char.ofNat (87 + (n - 10))
    ['\\', 'u', '0', '0', hx (c.toNat / 16), hx (c.toNat % 16)]
  else [c]

mutual

/-- Model of `JSON.stringify` (no indentation argument). -/
def stringifyL : Json → List Char
  | .null => String.toList "null"
  | .bool true => String.toList "true"
  | .bool false => String.toList "false"
  | .num n => (Int.repr n).toList
  | .str s => '"' :: (s.toList.flatMap escapeJsonChar) ++ ['"']
  | .arr xs => '[' :: stringifySeq xs ++ [']']
  | .obj kvs => '\x7b' :: stringifyFields kvs ++ ['\x7d']

def stringifySeq : List Json → List Char
  | [] => []
  | [x] => stringifyL x
  | x :: xs => stringifyL x ++ ',' :: stringifySeq xs

def stringifyFields : List (String × Json) → List Char
  | [] => []
  | [(k, v)] => '"' :: (k.toList.flatMap escapeJsonChar) ++ '"' :: ':' :: stringifyL v
  | (k, v) :: kvs =>
    '"' :: (k.toList.flatMap escapeJsonChar) ++ '"' :: ':' :: stringifyL v ++ ',' :: stringifyFields kvs

end

def jsonStringify (j : Json) : String := strOfList (stringifyL j)

/-! ## Tool invocation extraction (`extractToolInvocations`) and the
stripping counterpart (`removeToolJsonContent`) from `app/utils/tools.ts` -/

def keyToolCalls : String := "tool_calls"
def keyFunction : String := "function"
def keyArguments : String := "arguments"

/-- `parsedData.tool_calls` guarded by `toolCalls && Array.isArray(toolCalls)`:
an array (empty or not) is truthy, anything else fails the guard. -/
def toolCallsField (v : Json) : Option (List Json) :=
  match objGetJs v keyToolCalls with
  | some (.arr xs) => some xs
  | _ => none

/-- One step of the brace-balance scanner state
(`braceCount`, `inString`, `escapeNext`), mirroring the `while` body. -/
def braceState (count : Nat) (inStr esc : Bool) (c : Char) : Nat × Bool × Bool :=
  if esc then (count, inStr, false)
  else if c = '\\' then (count, inStr, true)
  else if c = '"' then (count, !inStr, false)
  else if !inStr && c = '\x7b' then (count + 1, inStr, false)
  else if !inStr && c = '\x7d' then (count - 1, inStr, false)
  else (count, inStr, false)

/-- Scan the characters after an opening brace; `some n` means the balance
counter reached zero after consuming `n` characters (the candidate span is
the brace plus those `n` characters), `none` that the text ran out first. -/
def scanBalanced : Nat → Bool → Bool → List Char → Option Nat
  | _, _, _, [] => none
  | count, inStr, esc, c :: rest =>
    let st := braceState count inStr esc c
    if st.1 = 0 then some 1
    else
      match scanBalanced st.1 st.2.1 st.2.2 rest with
      | some n => some (n + 1)
      | none => none

/-- Extraction attempt 2: left-to-right scan for a balanced JSON object
whose `tool_calls` is an array; on any failure the scan resumes one
character past the candidate opening brace. -/
def scanFindTc : List Char → Option (List Json)
  | [] => none
  | c :: rest =>
    if c = '\x7b' then
      match scanBalanced 1 false false rest with
      | some n =>
        match jsonParseL (c :: rest.take n) with
        | some v =>
          match toolCallsField v with
          | some tc => some tc
          | none => scanFindTc rest
        | none => scanFindTc rest
      | none => scanFindTc rest
    else scanFindTc rest

/-- Step 2 of `removeToolJsonContent`: same balanced scan, but a span is
dropped when its parse merely has a `tool_calls` key (`"tool_calls" in
parsedData`), whatever the value; other characters are copied.  `fuel`
bounds the loop; `l.length + 1` always suffices since every step consumes
at least one character. -/
def stripScan : Nat → List Char → List Char
  | 0, l => l
  | _, [] => []
  | fuel + 1, c :: rest =>
    if c = '\x7b' then
      match scanBalanced 1 false false rest with
      | some n =>
        match jsonParseL (c :: rest.take n) with
        | some v =>
          if (objGetJs v keyToolCalls).isSome then stripScan fuel (rest.drop n)
          else c :: stripScan fuel rest
        | none => c :: stripScan fuel rest
      | none => c :: stripScan fuel rest
    else c :: stripScan fuel rest

/-- Whether the balanced scan of `removeToolJsonContent` would delete some
span of `l` (used to state when stripping is the identity). -/
def scanHasAccepted : Nat → List Char → Bool
  | 0, _ => false
  | _, [] => false
  | fuel + 1, c :: rest =>
    if c = '\x7b' then
      match scanBalanced 1 false false rest with
      | some n =>
        match jsonParseL (c :: rest.take n) with
        | some v =>
          if (objGetJs v keyToolCalls).isSome then true
          else scanHasAccepted fuel rest
        | none => scanHasAccepted fuel rest
      | none => scanHasAccepted fuel rest
    else scanHasAccepted fuel rest

def ticksJson : List Char := String.toList "```json"
def ticks : List Char := String.toList "```"

/-- Non-greedy completion of the fenced pattern after its opening brace:
the first close brace followed (over `\s*`) by a closing fence wins.
Returns (characters through that close brace, characters through the end
of the closing fence). -/
def fenceClose : List Char → Option (Nat × Nat)
  | [] => none
  | c :: rest =>
    if c = '\x7d' then
      let wsN := (rest.takeWhile jsWs).length
      if ticks.isPrefixOf (rest.drop wsN) then some (1, 1 + wsN + 3)
      else
        match fenceClose rest with
        | some (a, b) => some (a + 1, b + 1)
        | none => none
    else
      match fenceClose rest with
      | some (a, b) => some (a + 1, b + 1)
      | none => none

/-- Attempt the fence regex ```` ```json\s*(\{.*?\})\s*``` ```` anchored at
the head of `l`: `some (fullLen, capture)`. -/
def fenceAt (l : List Char) : Option (Nat × List Char) :=
  if ticksJson.isPrefixOf l then
    let rem1 := l.drop 7
    let wsN := (rem1.takeWhile jsWs).length
    match rem1.drop wsN with
    | c :: rest =>
      if c = '\x7b' then
        match fenceClose rest with
        | some (capTail, fullTail) => some (7 + wsN + 1 + fullTail, c :: rest.take capTail)
        | none => none
      else none
    | [] => none
  else none

/-- Acceptance test of the fence replacement callback in
`removeToolJsonContent`: parse succeeds and has a `tool_calls` key. -/
def fenceAccept (cap : List Char) : Bool :=
  match jsonParseL cap with
  | some v => (objGetJs v keyToolCalls).isSome
  | none => false

/-- Step 1 of `removeToolJsonContent`: `text.replace(TOOL_CALL_FENCE_PATTERN,
removeToolCallBlock)` — each match is deleted when accepted, kept verbatim
otherwise; a position where the pattern fails to complete is skipped. -/
def fenceStrip : Nat → List Char → List Char
  | 0, l => l
  | fuel + 1, l =>
    match splitFirst ticksJson l with
    | none => l
    | some (pre, post) =>
      let occ := ticksJson ++ post
      match fenceAt occ with
      | some (fullLen, cap) =>
        pre ++ (if fenceAccept cap then [] else occ.take fullLen) ++ fenceStrip fuel (occ.drop fullLen)
      | none => pre ++ occ.take 1 ++ fenceStrip fuel (occ.drop 1)

/-- The fence captures of `matchAll(TOOL_CALL_FENCE_PATTERN)`, in match
order. -/
def fenceListCaps : Nat → List Char → List (List Char)
  | 0, _ => []
  | fuel + 1, l =>
    match splitFirst ticksJson l with
    | none => []
    | some (_, post) =>
      let occ := ticksJson ++ post
      match fenceAt occ with
      | some (fullLen, cap) => cap :: fenceListCaps fuel (occ.drop fullLen)
      | none => fenceListCaps fuel (occ.drop 1)

def firstToolCalls : List (List Char) → Option (List Json)
  | [] => none
  | cap :: caps =>
    match jsonParseL cap with
    | some v =>
      match toolCallsField v with
      | some tc => some tc
      | none => firstToolCalls caps
    | none => firstToolCalls caps

/-- Extraction attempt 1: first fenced JSON block whose `tool_calls` is an
array. -/
def fenceFindTc (l : List Char) : Option (List Json) :=
  firstToolCalls (fenceListCaps (l.length + 1) l)

/-- The in-place argument normalisation applied to each recovered tool
call: a truthy non-string `function.arguments` is re-serialised with
`JSON.stringify`; a falsy one (and everything else) is left untouched. -/
def normalizeTc (tc : Json) : Json :=
  match objGetJs tc keyFunction with
  | some f =>
    if jsTruthy f then
      match objGetJs f keyArguments with
      | some a =>
        if jsTruthy a then
          if isStrJson a then tc
          else objSet tc keyFunction (objSet f keyArguments (.str (jsonStringify a)))
        else tc
      | none => tc
    else tc
  | none => tc

/-! ### The natural-language fallback (`FUNCTION_CALL_PATTERN`) -/

def callFnLit : List Char := String.toList "调用函数"
def canshuLit : List Char := String.toList "参数"
def argumentsLit : List Char := String.toList "arguments"

/-- The character class `[\w\-\.]` of the pattern (`\w` is ASCII without
the `u` flag). -/
def nameChar (c : Char) : Bool := c.isAlphanum || c = '_' || c = '-' || c = '.'

def isColonChar (c : Char) : Bool := c = '：' || c = ':'

/-- Match `\s*(?:参数|arguments)[：:]\s*(\{.*?\})` at the head of `rem5`:
`some (len, argsCapture)`. -/
def nlAfterName (rem5 : List Char) : Option (Nat × List Char) :=
  let wsB := (rem5.takeWhile jsWs).length
  let rem6 := rem5.drop wsB
  let kw : Option Nat :=
    if canshuLit.isPrefixOf rem6 then some 2
    else if argumentsLit.isPrefixOf rem6 then some 9
    else none
  match kw with
  | none => none
  | some kn =>
    match rem6.drop kn with
    | c :: rem8 =>
      if isColonChar c then
        let wsC := (rem8.takeWhile jsWs).length
        match rem8.drop wsC with
        | b :: rest =>
          if b = '\x7b' then
            match rest.findIdx? (· = '\x7d') with
            | some j => some (wsB + kn + 1 + wsC + 1 + j + 1, b :: rest.take (j + 1))
            | none => none
          else none
        | [] => none
      else none
    | [] => none

/-- Backtracking over the greedy name length `([\w\-\.]+)`, longest
first. `some (len, nameCapture, argsCapture)` where `len` counts from the
start of the name. -/
def nlName (rem4 : List Char) : Nat → Option (Nat × List Char × List Char)
  | 0 => none
  | k + 1 =>
    match nlAfterName (rem4.drop (k + 1)) with
    | some (n, args) => some (k + 1 + n, rem4.take (k + 1), args)
    | none => nlName rem4 k

/-- Attempt `FUNCTION_CALL_PATTERN` anchored at the head of `l`:
`some (fullLen, nameCapture, argsCapture)`. -/
def matchNLAt (l : List Char) : Option (Nat × List Char × List Char) :=
  if callFnLit.isPrefixOf l then
    let rem := l.drop callFnLit.length
    let wsA := (rem.takeWhile jsWs).length
    match rem.drop wsA with
    | c :: rem3 =>
      if isColonChar c then
        let wsA2 := (rem3.takeWhile jsWs).length
        let rem4 := rem3.drop wsA2
        let r := (rem4.takeWhile nameChar).length
        if r = 0 then none
        else
          match nlName rem4 r with
          | some (n, nm, args) => some (callFnLit.length + wsA + 1 + wsA2 + n, nm, args)
          | none => none
      else none
    | [] => none
  else none

/-- `scannableText.match(FUNCTION_CALL_PATTERN)` with the `g` flag: the
list of FULL match texts, capture groups discarded. -/
def nlFindAll : Nat → List Char → List (List Char)
  | 0, _ => []
  | _, [] => []
  | fuel + 1, c :: rest =>
    match matchNLAt (c :: rest) with
    | some (n, _, _) => (c :: rest).take n :: nlFindAll fuel ((c :: rest).drop n)
    | none => nlFindAll fuel rest

def genCallId (now : Nat) : String := "call_" ++ toString (now * 1000000)

/-- Attempt 3 of the extractor, exactly as the code runs it: because
`String.match` with a global regex returns full matches only,
`naturalLangMatch[1]`/`[2]` are the second and third full matches; with
fewer matches `.trim()` of `undefined` throws (`Except.error`). -/
def nlStage (now : Nat) (scannable : List Char) : Except Unit (Option (List Json)) :=
  match nlFindAll (scannable.length + 1) scannable with
  | [] => .ok none
  | [_] => .error ()
  | [_, _] => .error ()
  | _ :: m1 :: m2 :: _ =>
    let functionName := trimL m1
    let argumentsStr := trimL m2
    match jsonParseL argumentsStr with
    | some _ =>
      .ok (some [Json.obj
        [("id", .str (genCallId now)),
         ("type", .str "function"),
         (keyFunction, .obj [("name", .str (strOfList functionName)),
                             (keyArguments, .str (strOfList argumentsStr))])]])
    | none => .ok none

/-- Attempts 1 and 2 of the extractor (the strategies shared structurally
with the stripper). -/
def jsonStrategies (scannable : List Char) : Option (List Json) :=
  match fenceFindTc scannable with
  | some tc => some tc
  | none => scanFindTc scannable

/-- `extractToolInvocations` of `app/utils/tools.ts`. `scanLimit` is
`config.SCAN_LIMIT`, `now` is `Date.now()`. -/
def extractToolInvocations (scanLimit now : Nat) (text : String) :
    Except Unit (Option (List Json)) :=
  if text = "" then .ok none
  else
    let scannable := text.toList.take scanLimit
    match jsonStrategies scannable with
    | some tc => .ok (some (tc.map normalizeTc))
    | none => nlStage now scannable

/-- `removeToolJsonContent` of `app/utils/tools.ts`: fence replacement,
then the balanced scan, then `.trim()` (the scan limit is not applied
here). -/
def removeToolJsonContent (text : String) : String :=
  let cleaned := fenceStrip (text.toList.length + 1) text.toList
  strOfList (trimL (stripScan (cleaned.length + 1) cleaned))

/-- Number of open-brace characters in a list.  Every span that
`removeToolJsonContent` deletes begins with an open brace, while trimming
never touches one, so this count separates genuine deletions from mere
trimming. -/
def braceCount (l : List Char) : Nat := l.countP (fun c => c == '\x7b')

/-! ## `transformThinkingContent` from `app/utils/helpers.ts` -/

def sumOpenLit : List Char := String.toList "<summary>"
def sumCloseLit : List Char := String.toList "</summary>"
def thinkCloseLit : List Char := String.toList "</thinking>"
def fullOpenLit : List Char := String.toList "<Full>"
def fullCloseLit : List Char := String.toList "</Full>"
def detailsOpenPre : List Char := String.toList "<details"
def detailsCloseLit : List Char := String.toList "</details>"
def spanOpenLit : List Char := String.toList "<span>"
def spanCloseLit : List Char := String.toList "</span>"
def gtSpLit : List Char := String.toList "> "
def nlGtLit : List Char := String.toList "\n> "
def nlLit : List Char := String.toList "\n"
def modeThink : String := "think"
def modeStrip : String := "strip"

/-- `content.replace(/<summary>[\s\S]*?<\/summary>/g, "")`: each match runs
from a `<summary>` to the first `</summary>` after it; replacement resumes
past the match. An opening tag never followed by a closing tag matches
nothing (and then no later opening tag can complete either). -/
def removeSummaries : Nat → List Char → List Char
  | 0, l => l
  | fuel + 1, l =>
    match splitFirst sumOpenLit l with
    | none => l
    | some (pre, post) =>
      match splitFirst sumCloseLit post with
      | none => l
      | some (_, post2) => pre ++ removeSummaries fuel post2

/-- `content.replace(/<details[^>]*>/g, rep)`: each match runs from
`<details` to the first `>` after it. -/
def replaceDetailsOpen : Nat → List Char → List Char → List Char
  | 0, _, l => l
  | fuel + 1, rep, l =>
    match splitFirst detailsOpenPre l with
    | none => l
    | some (pre, post) =>
      match splitFirst [ '>' ] post with
      | none => l
      | some (_, post2) => pre ++ rep ++ replaceDetailsOpen fuel rep post2

/-- The scan of `content.replace(/^> /gm, "")`: the first argument
records whether the current position is a JavaScript line start (the
start of the string, or just after a LineTerminator).  At a line start a
`"> "` marker is removed — at most one per line, since the search resumes
after the removed text, whose predecessor is a space. -/
def stripLineMarkersGo : Bool → List Char → List Char
  | _, [] => []
  | _, [c] => [c]
  | atLS, c :: c2 :: rest =>
    if atLS = true ∧ c = '>' ∧ c2 = ' ' then stripLineMarkersGo false rest
    else c :: stripLineMarkersGo (jsLineTerm c) (c2 :: rest)

def stripLineMarkers (l : List Char) : List Char := stripLineMarkersGo true l

/-- Whether `/^> /gm` matches somewhere in `l`, scanning from a position
whose line-start status is the first argument. -/
def hasLineMarker : Bool → List Char → Bool
  | _, [] => false
  | _, [_] => false
  | atLS, c :: c2 :: rest =>
    if atLS = true ∧ c = '>' ∧ c2 = ' ' then true
    else hasLineMarker (jsLineTerm c) (c2 :: rest)

/-- Global literal replacement with its canonical fuel. -/
def replaceAll (pat rep l : List Char) : List Char :=
  replaceSub (l.length + 1) pat rep l

/-- Step 2 of the transformer: strip the three literal marker tokens, in
source order. -/
def ttcStep2 (l : List Char) : List Char :=
  replaceAll fullCloseLit [] (replaceAll fullOpenLit [] (replaceAll thinkCloseLit [] l))

/-- Step 4 of the transformer: the mode-dependent `<details>` handling. -/
def ttcStep4 (mode : String) (l3 : List Char) : List Char :=
  if mode = modeThink then
    replaceAll detailsCloseLit spanCloseLit (replaceDetailsOpen (l3.length + 1) spanOpenLit l3)
  else if mode = modeStrip then
    replaceAll detailsCloseLit [] (replaceDetailsOpen (l3.length + 1) [] l3)
  else l3

/-- The six transformation steps before the final trim. -/
def ttcCore (mode : String) (l0 : List Char) : List Char :=
  replaceAll nlGtLit nlLit
    (stripLineMarkers (ttcStep4 mode (trimL (ttcStep2 (removeSummaries (l0.length + 1) l0)))))

/-- `transformThinkingContent` of `app/utils/helpers.ts`; `mode` is
`config.THINKING_PROCESSING`. -/
def transformThinkingContent (mode : String) (content : String) : String :=
  strOfList (trimL (ttcCore mode content.toList))

/-- A string on which every rewriting step of the transformer is the
identity: none of the rewritten markers occurs (the `<details>` markers
only matter in the `think` and `strip` modes), no line starts with the
blockquote marker, and no `"\n> "` occurs. -/
def transformSettled (mode : String) (l : List Char) : Bool :=
  !containsSub sumOpenLit l && !containsSub thinkCloseLit l &&
  !containsSub fullOpenLit l && !containsSub fullCloseLit l &&
  (if mode = modeThink || mode = modeStrip then
    !containsSub detailsOpenPre l && !containsSub detailsCloseLit l
  else true) &&
  !hasLineMarker true l &&
  !containsSub nlGtLit l

/-! ## SSE event decoder (`SSEParser.iterEvents` of `utils/sse_parser.ts`)

The network layer is modelled at the byte level: a chunked byte stream is
decoded by a byte-at-a-time model of the WHATWG streaming UTF-8 decoder
(`TextDecoder` with `stream: true`, replacement on error, BOM removal),
the decoded characters are buffered, and only complete lines (terminated
by a newline) are classified; the trailing incomplete line stays in the
buffer.  At end of stream pending bytes and the buffered line are dropped,
as in the source (no final flush). -/

inductive SSEEvent where
  | dataJson (value : Json) (raw : String)
  | dataRaw (raw : String)
  | eventKind (value : String)
  | idKind (value : String)
  | retryKind (value : Option Int)

/-- Model of `parseInt(value, 10)`: `none` is `NaN` (the source yields the
retry event even then; `parseInt` never throws, so its `catch` is dead). -/
def jsParseInt (l : List Char) : Option Int :=
  let l1 := l.dropWhile jsWs
  let signed : Bool × List Char :=
    match l1 with
    | c :: rest =>
      if c = '-' then (true, rest) else if c = '+' then (false, rest) else (false, l1)
    | [] => (false, l1)
  let ds := signed.2.takeWhile Char.isDigit
  if ds = [] then none
  else some (if signed.1 then -(Int.ofNat (digitsVal ds)) else Int.ofNat (digitsVal ds))

def fieldData : List Char := String.toList "data"
def fieldEvent : List Char := String.toList "event"
def fieldId : List Char := String.toList "id"
def fieldRetry : List Char := String.toList "retry"

/-- Classification of one complete line, as in the body of the `for` loop
of `iterEvents`: blank and comment lines and lines without a colon yield
nothing; otherwise the field before the first colon selects the event
kind, and a `data` value is tentatively JSON-parsed. -/
def parseSSELine (line : List Char) : Option SSEEvent :=
  if trimL line = [] then none
  else if line.head? = some ':' then none
  else
    match line.findIdx? (fun c => c = ':') with
    | none => none
    | some k =>
      let field := trimL (line.take k)
      let value := trimL (line.drop (k + 1))
      if field = fieldData then
        match jsonParseL value with
        | some j => some (.dataJson j (strOfList value))
        | none => some (.dataRaw (strOfList value))
      else if field = fieldEvent then some (.eventKind (strOfList value))
      else if field = fieldId then some (.idKind (strOfList value))
      else if field = fieldRetry then some (.retryKind (jsParseInt value))
      else none

/-- State of the WHATWG UTF-8 decoder between bytes. -/
structure Utf8State where
  codepoint : Nat := 0
  needed : Nat := 0
  seen : Nat := 0
  lower : Nat := 0x80
  upper : Nat := 0xBF
deriving DecidableEq

def utf8Init : Utf8State := {}

def replacementChar : Char := Char.ofNat 0xFFFD

/-- Handle a byte arriving with no sequence in progress. -/
def utf8Begin (b : Nat) : Utf8State × List Char :=
  if b ≤ 0x7F then (utf8Init, [Char.ofNat b])
  else if 0xC2 ≤ b ∧ b ≤ 0xDF then
    ({ codepoint := b % 32, needed := 1, seen := 0, lower := 0x80, upper := 0xBF }, [])
  else if b = 0xE0 then
    ({ codepoint := b % 16, needed := 2, seen := 0, lower := 0xA0, upper := 0xBF }, [])
  else if b = 0xED then
    ({ codepoint := b % 16, needed := 2, seen := 0, lower := 0x80, upper := 0x9F }, [])
  else if 0xE1 ≤ b ∧ b ≤ 0xEF then
    ({ codepoint := b % 16, needed := 2, seen := 0, lower := 0x80, upper := 0xBF }, [])
  else if b = 0xF0 then
    ({ codepoint := b % 8, needed := 3, seen := 0, lower := 0x90, upper := 0xBF }, [])
  else if 0xF1 ≤ b ∧ b ≤ 0xF3 then
    ({ codepoint := b % 8, needed := 3, seen := 0, lower := 0x80, upper := 0xBF }, [])
  else if b = 0xF4 then
    ({ codepoint := b % 8, needed := 3, seen := 0, lower := 0x80, upper := 0x8F }, [])
  else (utf8Init, [replacementChar])

/-- One byte of the WHATWG UTF-8 decoder; on a malformed continuation the
replacement character is emitted and the byte is reprocessed. -/
def utf8Step (st : Utf8State) (b : Nat) : Utf8State × List Char :=
  if st.needed = 0 then utf8Begin b
  else if st.lower ≤ b ∧ b ≤ st.upper then
    let cp := st.codepoint * 64 + b % 64
    if st.seen + 1 = st.needed then (utf8Init, [Char.ofNat cp])
    else ({ codepoint := cp, needed := st.needed, seen := st.seen + 1, lower := 0x80, upper := 0xBF }, [])
  else
    let fresh := utf8Begin b
    (fresh.1, replacementChar :: fresh.2)

def decodeChunk (st : Utf8State) : List Nat → Utf8State × List Char
  | [] => (st, [])
  | b :: bs =>
    let r1 := utf8Step st b
    let r2 := decodeChunk r1.1 bs
    (r2.1, r1.2 ++ r2.2)

/-- BOM removal of the UTF-8 decode algorithm (`ignoreBOM` is false by
default): a leading U+FEFF of the decoded stream is dropped. -/
def stripBom : List Char → List Char
  | [] => []
  | c :: rest => if c = Char.ofNat 0xFEFF then rest else c :: rest

/-- Per-connection state of the modelled `iterEvents` loop: the UTF-8
decoder state, whether the BOM position has been passed, and the buffered
incomplete line. -/
structure SSEState where
  utf8 : Utf8State := {}
  bomDone : Bool := false
  lineBuf : List Char := []

/-- One iteration of the `while` loop of `iterEvents`: decode the chunk,
append to the buffer, split on newlines, keep the last (incomplete)
segment buffered and classify the complete ones. -/
def sseFeed (st : SSEState) (chunk : List Nat) : SSEState × List SSEEvent :=
  let dec := decodeChunk st.utf8 chunk
  let adj : Bool × List Char :=
    if st.bomDone then (true, dec.2)
    else
      match dec.2 with
      | [] => (false, [])
      | c :: rest => (true, if c = Char.ofNat 0xFEFF then rest else c :: rest)
  let buf2 := st.lineBuf ++ adj.2
  let segs := splitNl buf2
  ({ utf8 := dec.1, bomDone := adj.1, lineBuf := segs.getLastD [] },
    segs.dropLast.filterMap parseSSELine)

def sseRun (st : SSEState) : List (List Nat) → List SSEEvent
  | [] => []
  | chunk :: rest =>
    let r := sseFeed st chunk
    r.2 ++ sseRun r.1 rest

/-- `SSEParser.iterEvents` consuming a chunked byte stream. -/
def iterEvents (chunks : List (List Nat)) : List SSEEvent :=
  sseRun {} chunks

/-- The events of the whole (unchunked) byte stream: decode, drop a BOM,
split into lines, classify every complete line. -/
def sseEventsOf (bytes : List Nat) : List SSEEvent :=
  ((splitNl (stripBom (decodeChunk {} bytes).2)).dropLast).filterMap parseSSELine

/-- UTF-8 encoder, used to build concrete byte streams in witnesses. -/
def utf8EncodeChar (c : Char) : List Nat :=
  let n := c.toNat
  if n ≤ 0x7F then [n]
  else if n ≤ 0x7FF then [0xC0 + n / 64, 0x80 + n % 64]
  else if n ≤ 0xFFFF then [0xE0 + n / 4096, 0x80 + (n / 64) % 64, 0x80 + n % 64]
  else [0xF0 + n / 262144, 0x80 + (n / 4096) % 64, 0x80 + (n / 64) % 64, 0x80 + n % 64]

def utf8Encode (s : String) : List Nat := s.toList.flatMap utf8EncodeChar

/-! ## The response assemblers (`handlers.ts`)

`UpstreamData` mirrors `UpstreamDataSchema` (the unused `usage` field is
omitted).  The emitted `data: <JSON>\n\n` lines are abstracted to their
payload structure `OutLine`, since their ids and timestamps derive from
`Date.now()`. -/

structure UpstreamErr where
  detail : String
  code : Int
deriving DecidableEq

structure UpstreamDataInner where
  error : Option UpstreamErr := none
deriving DecidableEq

structure UpstreamDataData where
  delta_content : String := ""
  edit_content : String := ""
  phase : String := ""
  done : Bool := false
  error : Option UpstreamErr := none
  inner : Option UpstreamDataInner := none
deriving DecidableEq

structure UpstreamData where
  type : String := ""
  data : UpstreamDataData := {}
  error : Option UpstreamErr := none
deriving DecidableEq

def phaseThinking : String := "thinking"
def phaseAnswer : String := "answer"
def phaseDone : String := "done"
def reasonStop : String := "stop"
def reasonToolCalls : String := "tool_calls"
def keyId : String := "id"
def keyType : String := "type"

/-- `StreamResponseHandler._hasError`. -/
def hasErrorFrame (u : UpstreamData) : Bool :=
  u.error.isSome || u.data.error.isSome ||
  (match u.data.inner with
  | some i => i.error.isSome
  | none => false)

/-- `StreamResponseHandler._getError`: outer error first, then the
frame-level one, then the nested one. -/
def getErrorFrame (u : UpstreamData) : Option UpstreamErr :=
  match u.error with
  | some e => some e
  | none =>
    match u.data.error with
    | some e => some e
    | none =>
      match u.data.inner with
      | some i => i.error
      | none => none

/-- A frame on which the handler loop stops: upstream error, `done`, or
the `done` phase. -/
def terminalFrame (u : UpstreamData) : Bool :=
  hasErrorFrame u || u.data.done || decide (u.data.phase = phaseDone)

/-- `StreamResponseHandler._extractEditContent`: the text between the
first and second `</details>` markers (or after the first when it is the
only one); empty without a marker. -/
def extractEditContent (editContent : String) : String :=
  let parts := splitOnSub (editContent.toList.length + 1) detailsCloseLit editContent.toList
  if parts.length > 1 then strOfList (parts.getD 1 []) else ""

/-- One emitted line of the streaming response, abstracted to its
payload. -/
inductive OutLine where
  | roleChunk
  | contentChunk (s : String)
  | reasoningChunk (s : String)
  | toolCallChunk (index : Nat) (id : Option Json) (ty : Json) (fn : Json)
  | finishChunk (reason : String)
  | doneMark

@[simp]
def isDoneMark : OutLine → Bool
  | .doneMark => true
  | _ => false

@[simp]
def isFinishChunk : OutLine → Bool
  | .finishChunk _ => true
  | _ => false

def countDone (outs : List OutLine) : Nat := outs.countP isDoneMark
def countFinish (outs : List OutLine) : Nat := outs.countP isFinishChunk

/-- `StreamResponseHandler._processContent`: note that `sentInitialAnswer`
is received by value, so the assignment inside the source function never
reaches the caller; the model therefore returns only the emitted lines
and the updated tool buffer. -/
def processContentS (mode : String) (hasTools sentInitialAnswer : Bool) (buffer : String)
    (u : UpstreamData) : List OutLine × String :=
  let content := if u.data.delta_content ≠ "" then u.data.delta_content else u.data.edit_content
  if content = "" then ([], buffer)
  else
    let processed :=
      if u.data.phase = phaseThinking then transformThinkingContent mode content else content
    if hasTools then ([], buffer ++ processed)
    else
      let initOuts : List OutLine :=
        if sentInitialAnswer = false ∧ u.data.edit_content ≠ "" ∧ u.data.phase = phaseAnswer then
          if extractEditContent u.data.edit_content ≠ "" then
            [.contentChunk (extractEditContent u.data.edit_content)]
          else []
        else []
      let deltaOuts : List OutLine :=
        if u.data.delta_content ≠ "" ∧ processed ≠ "" then
          if u.data.phase = phaseThinking then [.reasoningChunk processed]
          else [.contentChunk processed]
        else []
      (initOuts ++ deltaOuts, buffer)

/-- `tc.type || "function"`. -/
def jsOrFunctionStr (o : Option Json) : Json :=
  match o with
  | some t => if jsTruthy t then t else Json.str keyFunction
  | none => Json.str keyFunction

/-- `tc.function || {}`. -/
def jsOrEmptyObj (o : Option Json) : Json :=
  match o with
  | some f => if jsTruthy f then f else Json.obj []
  | none => Json.obj []

/-- The per-invocation chunks of `_sendEndChunk`, one per recovered tool
call, tagged with its position index. -/
def toolCallChunks (tcs : List Json) : List OutLine :=
  tcs.enum.map (fun p =>
    OutLine.toolCallChunk p.1 (objGetJs p.2 keyId) (jsOrFunctionStr (objGetJs p.2 keyType))
      (jsOrEmptyObj (objGetJs p.2 keyFunction)))

/-- `StreamResponseHandler._sendEndChunk` (reached with `streamEnded`
still false): in tool mode run the extractor on the buffer — it can throw
(`Except.error`), which the catch block of the caller turns into a plain `stop`
terminal. -/
def sendEndChunkE (scanLimit now : Nat) (hasTools : Bool) (buffer : String) :
    Except Unit (List OutLine) :=
  if hasTools then
    match extractToolInvocations scanLimit now buffer with
    | .error e => .error e
    | .ok (some tcs) => .ok (toolCallChunks tcs ++ [.finishChunk reasonToolCalls, .doneMark])
    | .ok none =>
      .ok ((if removeToolJsonContent buffer ≠ "" then
          [OutLine.contentChunk (removeToolJsonContent buffer)]
        else []) ++ [.finishChunk reasonStop, .doneMark])
  else .ok [.finishChunk reasonStop, .doneMark]

/-- The terminal lines produced at a done frame: `_sendEndChunk`, with its
exception caught by the catch block of `handle`, which emits the forced
`stop` terminal (`streamEnded` is still false there). -/
def sendEndCaught (scanLimit now : Nat) (hasTools : Bool) (buffer : String) : List OutLine :=
  match sendEndChunkE scanLimit now hasTools buffer with
  | .ok ends => ends
  | .error _ => [.finishChunk reasonStop, .doneMark]

/-- The frame loop of `StreamResponseHandler.handle` after the role chunk:
an error frame yields the `handleUpstreamError` terminal and stops; a
`done` frame yields `_sendEndChunk` (its exception is caught and turned
into a forced `stop` terminal) and stops; reaching the end of the frames
emits nothing further.  `sentInitialAnswer` is threaded unchanged, exactly
as the by-value call in the source leaves it. -/
def streamLoop (mode : String) (scanLimit now : Nat) (hasTools : Bool)
    (buffer : String) (sentInitialAnswer : Bool) : List UpstreamData → List OutLine
  | [] => []
  | u :: rest =>
    if hasErrorFrame u then [.finishChunk reasonStop, .doneMark]
    else
      let pc := processContentS mode hasTools sentInitialAnswer buffer u
      if u.data.done ∨ u.data.phase = phaseDone then
        pc.1 ++ sendEndCaught scanLimit now hasTools pc.2
      else pc.1 ++ streamLoop mode scanLimit now hasTools pc.2 sentInitialAnswer rest

/-- `StreamResponseHandler.handle` from the point where the upstream
responded successfully: the role announcement chunk followed by the frame
loop. -/
def streamOutputs (mode : String) (scanLimit now : Nat) (hasTools : Bool)
    (frames : List UpstreamData) : List OutLine :=
  .roleChunk :: streamLoop mode scanLimit now hasTools "" false frames

/-- The collection loop of `NonStreamResponseHandler.handle`: only
`delta_content` is accumulated (thinking frames transformed first);
`edit_content` is never consulted; collection stops after a `done`
frame. -/
def nonStreamCollect (mode : String) : List UpstreamData → String
  | [] => ""
  | u :: rest =>
    let part :=
      if u.data.delta_content ≠ "" then
        (let c :=
          if u.data.phase = phaseThinking then
            transformThinkingContent mode u.data.delta_content
          else u.data.delta_content
        if c ≠ "" then c else "")
      else ""
    if u.data.done ∨ u.data.phase = phaseDone then part
    else part ++ nonStreamCollect mode rest

def withEditContent (e : String) (u : UpstreamData) : UpstreamData :=
  { u with data := { u.data with edit_content := e } }

/-! ## Concrete inputs used by counterexamples and witnesses -/

def c2Stream : String := "data: \x7b\"phase\": \"answer\"\x7d\nevent: ping\ndata: h\u00e9llo\nid: 7\n"
def c2Chunks1 : List (List Nat) := [utf8Encode c2Stream]
def c2Chunks2 : List (List Nat) :=
  [[], (utf8Encode c2Stream).take 10, ((utf8Encode c2Stream).drop 10).take 36,
    (utf8Encode c2Stream).drop 46]

def c3Input : String := "\x7b\"tool_calls\": null\x7d"
def c3SettledInput : String := "plain text with no tool json"
def c4Input : String := "> > a"
def c4SettledInput : String := "hello"
def c5Input : String := "\x7b\"tool_calls\":[\x7b\"function\":\x7b\"name\":\"f\",\"arguments\":0\x7d\x7d]\x7d"
def specToolText : String :=
  "```json\n\x7b\"tool_calls\":[\x7b\"id\":\"call_1\",\"type\":\"function\",\"function\":\x7b\"name\":\"f\",\"arguments\":\x7b\"a\":1\x7d\x7d\x7d]\x7d\n```"
def c6Input : String := "```json\n\x7b\"tool_calls\": []\x7d\n```"
def c9Input : String := "调用函数: myfunc 参数: \x7b\"a\": 1\x7d"

def c7Frame : UpstreamData :=
  { type := "chat", data := { edit_content := "<details>x</details>Hello", phase := phaseAnswer } }

def c8ErrFrame : UpstreamData :=
  { type := "chat", error := some { detail := "boom", code := 500 } }
def c8ContentFrame : UpstreamData :=
  { type := "chat", data := { delta_content := "hi", phase := phaseAnswer } }
def c8DoneFrame : UpstreamData :=
  { type := "chat", data := { done := true, phase := phaseDone } }

def c10Frame1 : UpstreamData :=
  { type := "chat", data := { edit_content := "<details></details>snapshot one", phase := phaseAnswer } }
def c10Frame2 : UpstreamData :=
  { type := "chat", data := { edit_content := "<details></details>snapshot two", phase := phaseAnswer, done := true } }

/-! ## Basic lemmas about the string utilities -/

theorem toList_strOfList (l : List Char) : (strOfList l).toList = l := rfl

theorem splitFirst_eq_none {pat l : List Char} (h : containsSub pat l = false) :
    splitFirst pat l = none := by
  cases hs : splitFirst pat l with
  | none => rfl
  | some v => rw [containsSub, hs] at h; simp at h

theorem splitFirst_sound {pat : List Char} :
    ∀ {l pre post : List Char}, splitFirst pat l = some (pre, post) →
      l = pre ++ pat ++ post := by
  intro l
  induction l with
  | nil =>
    intro pre post h
    rw [splitFirst] at h
    split at h
    · rename_i hpat
      injection h with h2
      injection h2 with ha hb
      subst hpat; subst ha; subst hb; rfl
    · cases h
  | cons c rest ih =>
    intro pre post h
    rw [splitFirst] at h
    by_cases hp : pat.isPrefixOf (c :: rest)
    · rw [if_pos hp] at h
      injection h with h2
      injection h2 with ha hb
      obtain ⟨t, ht⟩ := List.isPrefixOf_iff_prefix.mp hp
      have hdrop : (c :: rest).drop pat.length = t := by
        rw [← ht]; exact List.drop_left pat t
      subst ha
      rw [← hb, hdrop, List.nil_append, ht]
    · rw [if_neg hp] at h
      cases hrec : splitFirst pat rest with
      | none => rw [hrec] at h; cases h
      | some pp =>
        obtain ⟨pre2, post2⟩ := pp
        rw [hrec] at h
        injection h with h2
        injection h2 with ha hb
        subst hb
        rw [← ha]
        have := ih hrec
        simp [this]

theorem replaceSub_id (fuel : Nat) {pat : List Char} (rep : List Char) {l : List Char}
    (h : containsSub pat l = false) : replaceSub fuel pat rep l = l := by
  cases fuel with
  | zero => rfl
  | succ n => rw [replaceSub, splitFirst_eq_none h]

theorem replaceAll_id {pat : List Char} (rep : List Char) {l : List Char}
    (h : containsSub pat l = false) : replaceAll pat rep l = l :=
  replaceSub_id _ _ h

theorem removeSummaries_id (fuel : Nat) {l : List Char}
    (h : containsSub sumOpenLit l = false) : removeSummaries fuel l = l := by
  cases fuel with
  | zero => rfl
  | succ n => rw [removeSummaries, splitFirst_eq_none h]

theorem replaceDetailsOpen_id (fuel : Nat) (rep : List Char) {l : List Char}
    (h : containsSub detailsOpenPre l = false) : replaceDetailsOpen fuel rep l = l := by
  cases fuel with
  | zero => rfl
  | succ n => rw [replaceDetailsOpen, splitFirst_eq_none h]

theorem dropWhile_head_false (p : Char → Bool) :
    ∀ (l : List Char) (c : Char) (cs : List Char), l.dropWhile p = c :: cs → p c = false := by
  intro l
  induction l with
  | nil => intro c cs h; simp [List.dropWhile] at h
  | cons a rest ih =>
    intro c cs h
    rw [List.dropWhile_cons] at h
    by_cases hp : p a
    · rw [if_pos hp] at h; exact ih c cs h
    · rw [if_neg hp] at h
      injection h with ha hb
      subst ha; simpa using hp

theorem dropWhile_suffix_decomp (p : Char → Bool) (l : List Char) :
    ∃ t, t ++ l.dropWhile p = l := by
  induction l with
  | nil => exact ⟨[], rfl⟩
  | cons a rest ih =>
    rw [List.dropWhile_cons]
    by_cases hp : p a
    · obtain ⟨t, ht⟩ := ih
      exact ⟨a :: t, by simp [hp, ht]⟩
    · exact ⟨[], by simp [hp]⟩

theorem trimL_idem (l : List Char) : trimL (trimL l) = trimL l := by
  show ((((((l.dropWhile jsWs).reverse.dropWhile jsWs).reverse).dropWhile jsWs).reverse.dropWhile jsWs).reverse) =
    ((l.dropWhile jsWs).reverse.dropWhile jsWs).reverse
  have h1 : (((l.dropWhile jsWs).reverse.dropWhile jsWs).reverse).dropWhile jsWs =
      ((l.dropWhile jsWs).reverse.dropWhile jsWs).reverse := by
    cases hBr : ((l.dropWhile jsWs).reverse.dropWhile jsWs).reverse with
    | nil => simp
    | cons c cs =>
      obtain ⟨t, ht⟩ := dropWhile_suffix_decomp jsWs (l.dropWhile jsWs).reverse
      have hA2 : l.dropWhile jsWs =
          ((l.dropWhile jsWs).reverse.dropWhile jsWs).reverse ++ t.reverse := by
        have h3 := congrArg List.reverse ht
        simpa [List.reverse_append] using h3.symm
      rw [hBr] at hA2
      have hc : jsWs c = false :=
        dropWhile_head_false jsWs l c (cs ++ t.reverse) (by simpa using hA2)
      rw [List.dropWhile_cons, if_neg (by simp [hc])]
  have h2 : ((l.dropWhile jsWs).reverse.dropWhile jsWs).dropWhile jsWs =
      (l.dropWhile jsWs).reverse.dropWhile jsWs := by
    cases hB2 : (l.dropWhile jsWs).reverse.dropWhile jsWs with
    | nil => rfl
    | cons c cs =>
      have hc := dropWhile_head_false jsWs (l.dropWhile jsWs).reverse c cs hB2
      rw [List.dropWhile_cons, if_neg (by simp [hc])]
  rw [h1, List.reverse_reverse, h2]

theorem splitNl_ne_nil (l : List Char) : splitNl l ≠ [] := by
  cases l with
  | nil => simp [splitNl]
  | cons c rest =>
    rw [splitNl]
    split
    · simp
    · cases splitNl rest <;> simp

theorem joinNl_splitNl (l : List Char) : joinNl (splitNl l) = l := by
  induction l with
  | nil => rfl
  | cons c rest ih =>
    by_cases h : c = '\n'
    · subst h
      rw [splitNl, if_pos rfl]
      cases hs : splitNl rest with
      | nil => exact absurd hs (splitNl_ne_nil rest)
      | cons s ss =>
        rw [hs] at ih
        simp [joinNl, ih]
    · rw [splitNl, if_neg h]
      cases hs : splitNl rest with
      | nil => exact absurd hs (splitNl_ne_nil rest)
      | cons s ss =>
        rw [hs] at ih
        cases ss with
        | nil => simp only [joinNl] at ih ⊢; rw [ih]
        | cons t ts =>
          simp only [joinNl] at ih ⊢
          rw [List.cons_append, ih]

theorem stripLineMarkersGo_id : ∀ (l : List Char) (atLS : Bool),
    hasLineMarker atLS l = false → stripLineMarkersGo atLS l = l := by
  intro l
  induction l with
  | nil => intro atLS _; rfl
  | cons c rest ih =>
    intro atLS h
    cases rest with
    | nil => rfl
    | cons c2 rest2 =>
      rw [hasLineMarker] at h
      rw [stripLineMarkersGo]
      by_cases hm : atLS = true ∧ c = '>' ∧ c2 = ' '
      · rw [if_pos hm] at h; cases h
      · rw [if_neg hm] at h ⊢
        rw [ih (jsLineTerm c) h]

theorem stripLineMarkers_id {l : List Char}
    (h : hasLineMarker true l = false) : stripLineMarkers l = l :=
  stripLineMarkersGo_id l true h

/-- On a trimmed string containing none of the rewritten markers, every
step of the transformer is the identity. -/
theorem ttcCore_fixed (mode : String) {y : List Char}
    (hset : transformSettled mode y = true) (htr : trimL y = y) : ttcCore mode y = y := by
  have hs := hset
  simp only [transformSettled, Bool.and_eq_true, Bool.not_eq_true'] at hs
  obtain ⟨⟨⟨⟨⟨⟨h1, h2⟩, h3⟩, h4⟩, he⟩, hlines⟩, hnl⟩ := hs
  have hstep2 : ttcStep2 y = y := by
    rw [ttcStep2, replaceAll_id _ h2, replaceAll_id _ h3, replaceAll_id _ h4]
  have hstep4 : ttcStep4 mode y = y := by
    rw [ttcStep4]
    by_cases hm : mode = modeThink
    · rw [if_pos (by simp [hm]), Bool.and_eq_true] at he
      rw [if_pos hm, replaceDetailsOpen_id _ _ (by simpa using he.1),
        replaceAll_id _ (by simpa using he.2)]
    · by_cases hm2 : mode = modeStrip
      · rw [if_pos (by simp [hm2]), Bool.and_eq_true] at he
        rw [if_neg hm, if_pos hm2, replaceDetailsOpen_id _ _ (by simpa using he.1),
          replaceAll_id _ (by simpa using he.2)]
      · rw [if_neg hm, if_neg hm2]
  rw [ttcCore, removeSummaries_id _ h1, hstep2, htr, hstep4,
    stripLineMarkers_id hlines, replaceAll_id _ hnl]

end Zai

namespace Zai

/-! ## Claim C4: idempotence of the thinking-content transformer -/

/-- C4 (counterexample): `transformThinkingContent` is not idempotent.  On
`"> > a"` the per-line blockquote-marker step removes one `"> "` per
application, so a second application changes the output again. -/
theorem c4_counterexample :
    transformThinkingContent modeThink (transformThinkingContent modeThink c4Input) ≠
      transformThinkingContent modeThink c4Input := by decide

/-- C4 (amended): the transformer is idempotent on every input whose image
contains none of the rewritten markers — no `<summary>`, no literal
marker tokens, no `<details` / `</details>` (in the think and strip
modes), no line starting with `"> "` and no `"\n> "`.  Outside that set it
can keep rewriting, as the counterexample shows. -/
theorem c4_idempotent_on_settled_output (mode x : String)
    (h : transformSettled mode (transformThinkingContent mode x).toList = true) :
    transformThinkingContent mode (transformThinkingContent mode x) =
      transformThinkingContent mode x := by
  rw [transformThinkingContent, toList_strOfList] at h
  rw [transformThinkingContent, transformThinkingContent, toList_strOfList]
  have htr : trimL (trimL (ttcCore mode x.toList)) = trimL (ttcCore mode x.toList) :=
    trimL_idem _
  rw [ttcCore_fixed mode h htr, htr]

/-- C4 (witness): a concrete settled input. -/
theorem c4_witness :
    transformSettled modeThink (transformThinkingContent modeThink c4SettledInput).toList = true ∧
    transformThinkingContent modeThink (transformThinkingContent modeThink c4SettledInput) =
      transformThinkingContent modeThink c4SettledInput :=
  ⟨by decide, c4_idempotent_on_settled_output modeThink c4SettledInput (by decide)⟩

/-! ## Claim C7: the initial-answer special case fires on every
edit-content answer frame, not only the first -/

/-- C7 (code evaluation): two identical answer frames whose text arrives
only as `edit_content` snapshots each re-emit the recovered snapshot —
the `sentInitialAnswer = true` assignment inside `_processContent` writes
to a by-value parameter, so the loop flag in `handle` never becomes true
and the special case is not limited to the first frame as the claim
states. -/
theorem c7_code_evaluation :
    streamOutputs modeThink 200000 0 false [c7Frame, c7Frame] =
      [.roleChunk, .contentChunk "Hello", .contentChunk "Hello"] := rfl

/-! ## Claim C9: the natural-language extraction pattern -/

/-- C9 (code evaluation): on a text containing exactly one occurrence of
the phrase `调用函数: NAME 参数: {...}` with valid JSON arguments, the
extractor throws instead of returning the synthesized invocation:
`String.match` with a global regex returns full matches without capture
groups, so `naturalLangMatch[1]` is `undefined` and `.trim()` raises a
`TypeError` (modelled as `Except.error`). -/
theorem c9_code_evaluation :
    (nlFindAll (c9Input.toList.length + 1) c9Input.toList).length = 1 ∧
    extractToolInvocations 200000 0 c9Input = .error () := ⟨rfl, rfl⟩

/-! ## Claim C10: the non-streaming assembler collects only
`delta_content` -/

/-- C10: the collection loop of `NonStreamResponseHandler.handle` never
reads `edit_content` (replacing it in every frame leaves the collected
text unchanged), and a frame sequence whose text arrives only as
`edit_content` snapshots collects to the empty string. -/
theorem c10_nonstream_ignores_edit_content (mode : String) (frames : List UpstreamData) :
    (∀ e, nonStreamCollect mode (frames.map (withEditContent e)) = nonStreamCollect mode frames) ∧
    ((∀ u ∈ frames, u.data.delta_content = "") → nonStreamCollect mode frames = "") := by
  constructor
  · intro e
    induction frames with
    | nil => rfl
    | cons u rest ih => simp [nonStreamCollect, withEditContent, ih]
  · intro h
    induction frames with
    | nil => rfl
    | cons u rest ih =>
      have hu : u.data.delta_content = "" := h u (List.mem_cons_self u rest)
      have hrest := ih (fun v hv => h v (List.mem_cons_of_mem u hv))
      simp [nonStreamCollect, hu, hrest]

/-- C10 (witness): two snapshot-only frames collect to the empty
string. -/
theorem c10_witness :
    (∀ u ∈ [c10Frame1, c10Frame2], u.data.delta_content = "") ∧
    nonStreamCollect modeThink [c10Frame1, c10Frame2] = "" :=
  ⟨by decide, (c10_nonstream_ignores_edit_content modeThink [c10Frame1, c10Frame2]).2 (by decide)⟩

/-! ## Claim C1 (counterexample part): a frame sequence with no terminal
condition produces no terminal sequence at all -/

/-- C1 (counterexample): when the upstream closes without any done/error
frame the stream handler emits no finish-reason chunk and no `[DONE]`
marker, so the output does not contain exactly one terminal sequence for
every consumed frame sequence. -/
theorem c1_counterexample :
    countDone (streamOutputs modeThink 200000 0 false []) = 0 := rfl

end Zai

namespace Zai

/-! ## Claim C1 (amended) and Claim C8: terminal behaviour of the stream
handler loop -/

theorem countDone_append (a b : List OutLine) : countDone (a ++ b) = countDone a + countDone b :=
  List.countP_append _ _ _

theorem countFinish_append (a b : List OutLine) :
    countFinish (a ++ b) = countFinish a + countFinish b :=
  List.countP_append _ _ _

theorem processContent_no_terminal (mode : String) (hasTools sIA : Bool) (buffer : String)
    (u : UpstreamData) :
    countDone (processContentS mode hasTools sIA buffer u).1 = 0 ∧
    countFinish (processContentS mode hasTools sIA buffer u).1 = 0 := by
  constructor
  · rw [countDone, List.countP_eq_zero]
    intro a ha
    rw [processContentS] at ha
    split_ifs at ha <;> aesop
  · rw [countFinish, List.countP_eq_zero]
    intro a ha
    rw [processContentS] at ha
    split_ifs at ha <;> aesop

theorem toolCallChunks_no_terminal (tcs : List Json) :
    countDone (toolCallChunks tcs) = 0 ∧ countFinish (toolCallChunks tcs) = 0 := by
  constructor
  · rw [countDone, List.countP_eq_zero]
    intro a ha
    obtain ⟨p, hp, hpa⟩ := List.mem_map.mp ha
    rw [← hpa]; simp [isDoneMark]
  · rw [countFinish, List.countP_eq_zero]
    intro a ha
    obtain ⟨p, hp, hpa⟩ := List.mem_map.mp ha
    rw [← hpa]; simp [isFinishChunk]

theorem sendEnd_counts (scanLimit now : Nat) (hasTools : Bool) (buffer : String)
    (ends : List OutLine) (h : sendEndChunkE scanLimit now hasTools buffer = .ok ends) :
    countDone ends = 1 ∧ countFinish ends = 1 := by
  by_cases htl : hasTools = true
  · rw [sendEndChunkE, if_pos htl] at h
    cases hx : extractToolInvocations scanLimit now buffer with
    | error e => rw [hx] at h; cases h
    | ok o =>
      rw [hx] at h
      cases o with
      | some tcs =>
        injection h with h2
        rw [← h2]
        constructor
        · rw [countDone_append, (toolCallChunks_no_terminal tcs).1]; rfl
        · rw [countFinish_append, (toolCallChunks_no_terminal tcs).2]; rfl
      | none =>
        injection h with h2
        rw [← h2]
        split_ifs <;> simp [countDone, countFinish, List.countP_append, List.countP_cons]
  · rw [sendEndChunkE, if_neg htl] at h
    injection h with h2
    rw [← h2]
    simp [countDone, countFinish, List.countP_cons]

theorem sendEndCaught_counts (scanLimit now : Nat) (hasTools : Bool) (buffer : String) :
    countDone (sendEndCaught scanLimit now hasTools buffer) = 1 ∧
    countFinish (sendEndCaught scanLimit now hasTools buffer) = 1 := by
  rw [sendEndCaught]
  split
  · rename_i ends hse
    exact sendEnd_counts _ _ _ _ _ hse
  · simp [countDone, countFinish, List.countP_cons]

theorem streamLoop_terminal_counts (mode : String) (scanLimit now : Nat) (hasTools : Bool)
    (frames : List UpstreamData) :
    ∀ (buffer : String) (sIA : Bool),
      countDone (streamLoop mode scanLimit now hasTools buffer sIA frames) ≤ 1 ∧
      countFinish (streamLoop mode scanLimit now hasTools buffer sIA frames) =
        countDone (streamLoop mode scanLimit now hasTools buffer sIA frames) ∧
      (countDone (streamLoop mode scanLimit now hasTools buffer sIA frames) = 1 ↔
        frames.any terminalFrame = true) := by
  induction frames with
  | nil => intro buffer sIA; simp [streamLoop, countDone, countFinish]
  | cons u rest ih =>
    intro buffer sIA
    rw [streamLoop]
    by_cases herr : hasErrorFrame u = true
    · rw [if_pos herr]
      have ht : terminalFrame u = true := by simp [terminalFrame, herr]
      refine ⟨?_, ?_, ?_⟩
      · simp [countDone, List.countP_cons]
      · simp [countDone, countFinish, List.countP_cons]
      · simp [countDone, List.countP_cons, List.any_cons, ht]
    · rw [if_neg herr]
      have herr2 : hasErrorFrame u = false := Bool.not_eq_true _ ▸ herr
      by_cases hdone : u.data.done = true ∨ u.data.phase = phaseDone
      · rw [if_pos hdone]
        have ht : terminalFrame u = true := by
          rcases hdone with h | h <;> simp [terminalFrame, h]
        have hpc := processContent_no_terminal mode hasTools sIA buffer u
        have hends := sendEndCaught_counts scanLimit now hasTools
          (processContentS mode hasTools sIA buffer u).2
        refine ⟨?_, ?_, ?_⟩
        · simp [countDone_append, hpc.1, hends.1]
        · simp [countFinish_append, countDone_append, hpc.1, hpc.2, hends.1, hends.2]
        · simp [countDone_append, hpc.1, hends.1, List.any_cons, ht]
      · rw [if_neg hdone]
        push_neg at hdone
        have hd1 : u.data.done = false := Bool.not_eq_true _ ▸ hdone.1
        have ht : terminalFrame u = false := by
          simp [terminalFrame, herr2, hd1, hdone.2]
        have hpc := processContent_no_terminal mode hasTools sIA buffer u
        have hrec := ih (processContentS mode hasTools sIA buffer u).2 sIA
        refine ⟨?_, ?_, ?_⟩
        · rw [countDone_append, hpc.1]
          simpa using hrec.1
        · rw [countFinish_append, countDone_append, hpc.1, hpc.2]
          simpa using hrec.2.1
        · rw [countDone_append, hpc.1]
          rw [List.any_cons, ht]
          simpa using hrec.2.2

/-- C1 (amended): the stream handler emits at most one terminal sequence
per response; the `[DONE]` marker count equals the finish-reason chunk
count, and it is one exactly when some consumed frame satisfies a
terminal condition (error, `done`, or the `done` phase) — in particular
zero, not one, when the upstream closes without a terminal frame
(`c1_counterexample`).  Duplicate done frames, done plus error, or an
extraction exception never produce a second terminal sequence. -/
theorem c1_terminal_at_most_once (mode : String) (scanLimit now : Nat) (hasTools : Bool)
    (frames : List UpstreamData) :
    countDone (streamOutputs mode scanLimit now hasTools frames) ≤ 1 ∧
    countFinish (streamOutputs mode scanLimit now hasTools frames) =
      countDone (streamOutputs mode scanLimit now hasTools frames) ∧
    (countDone (streamOutputs mode scanLimit now hasTools frames) = 1 ↔
      frames.any terminalFrame = true) := by
  have h := streamLoop_terminal_counts mode scanLimit now hasTools frames "" false
  rw [streamOutputs]
  have h1 : countDone (OutLine.roleChunk :: streamLoop mode scanLimit now hasTools "" false frames) =
      countDone (streamLoop mode scanLimit now hasTools "" false frames) := by
    simp [countDone, List.countP_cons, isDoneMark]
  have h2 : countFinish (OutLine.roleChunk :: streamLoop mode scanLimit now hasTools "" false frames) =
      countFinish (streamLoop mode scanLimit now hasTools "" false frames) := by
    simp [countFinish, List.countP_cons, isFinishChunk]
  rw [h1, h2]
  exact h

end Zai

namespace Zai

theorem streamLoop_error (mode : String) (scanLimit now : Nat) (hasTools : Bool)
    (pre : List UpstreamData) :
    ∀ (buffer : String) (sIA : Bool) (f : UpstreamData) (rest : List UpstreamData),
      (∀ g ∈ pre, terminalFrame g = false) → hasErrorFrame f = true →
      streamLoop mode scanLimit now hasTools buffer sIA (pre ++ f :: rest) =
        streamLoop mode scanLimit now hasTools buffer sIA pre ++
          [.finishChunk reasonStop, .doneMark] := by
  induction pre with
  | nil =>
    intro buffer sIA f rest hpre hf
    simp [streamLoop, hf]
  | cons g gs ih =>
    intro buffer sIA f rest hpre hf
    have hg : terminalFrame g = false := hpre g (List.mem_cons_self g gs)
    have hgs : ∀ x ∈ gs, terminalFrame x = false :=
      fun x hx => hpre x (List.mem_cons_of_mem g hx)
    have hgerr : hasErrorFrame g = false := by
      revert hg; simp [terminalFrame]; intro h1 _ _; exact h1
    have hgdone : g.data.done = false ∧ g.data.phase ≠ phaseDone := by
      revert hg; simp [terminalFrame]; intro _ h2 h3; exact ⟨h2, h3⟩
    simp [streamLoop, hgerr, hgdone.1, hgdone.2]
    rw [ih _ sIA f rest hgs hf]

/-- C8: a frame carrying an upstream error in any of the three locations
immediately ends the translation with a normal-looking terminal sequence
(finish reason `"stop"` followed by the `[DONE]` marker): the output is
independent of any frames after the error frame, it ends with that
terminal pair, and `_getError` resolves the error with the outer field
taking precedence over `data.error`, which takes precedence over
`data.inner.error`. -/
theorem c8_error_terminates_stream (mode : String) (scanLimit now : Nat) (hasTools : Bool)
    (pre : List UpstreamData) (f : UpstreamData) (rest1 rest2 : List UpstreamData)
    (hpre : ∀ g ∈ pre, terminalFrame g = false) (hf : hasErrorFrame f = true) :
    streamOutputs mode scanLimit now hasTools (pre ++ f :: rest1) =
      streamOutputs mode scanLimit now hasTools (pre ++ f :: rest2) ∧
    (∃ pfx, streamOutputs mode scanLimit now hasTools (pre ++ f :: rest1) =
      pfx ++ [OutLine.finishChunk reasonStop, OutLine.doneMark]) ∧
    (∀ e, f.error = some e → getErrorFrame f = some e) ∧
    (∀ e, f.error = none → f.data.error = some e → getErrorFrame f = some e) ∧
    (∀ i, f.error = none → f.data.error = none → f.data.inner = some i →
      getErrorFrame f = i.error) := by
  refine ⟨?_, ?_, ?_, ?_, ?_⟩
  · rw [streamOutputs, streamOutputs, streamLoop_error mode scanLimit now hasTools pre _ _ f rest1 hpre hf,
      streamLoop_error mode scanLimit now hasTools pre _ _ f rest2 hpre hf]
  · refine ⟨OutLine.roleChunk :: streamLoop mode scanLimit now hasTools "" false pre, ?_⟩
    rw [streamOutputs, streamLoop_error mode scanLimit now hasTools pre _ _ f rest1 hpre hf]
    rfl
  · intro e he; rw [getErrorFrame, he]
  · intro e he1 he2; rw [getErrorFrame, he1, he2]
  · intro i he1 he2 hi; rw [getErrorFrame, he1, he2, hi]

/-- C8 (witness): a content frame, then a frame with an outer error, then
a trailing frame that is never processed. -/
theorem c8_witness :
    streamOutputs modeThink 200000 0 false ([c8ContentFrame] ++ c8ErrFrame :: [c8DoneFrame]) =
      streamOutputs modeThink 200000 0 false ([c8ContentFrame] ++ c8ErrFrame :: []) :=
  (c8_error_terminates_stream modeThink 200000 0 false [c8ContentFrame] c8ErrFrame
    [c8DoneFrame] [] (by decide) (by decide)).1

end Zai

namespace Zai

/-! ## Claims C5 and C6: the extraction result -/

theorem lookup_objInsert (k : String) (v : Json) (kvs : List (String × Json)) :
    (objInsert k v kvs).lookup k = some v := by
  induction kvs with
  | nil => simp [objInsert, List.lookup]
  | cons p rest ih =>
    obtain ⟨k2, v2⟩ := p
    by_cases h : k2 = k
    · simp [objInsert, h, List.lookup]
    · have h2 : ¬(k = k2) := fun e => h e.symm
      have hb : (k == k2) = false := beq_eq_false_iff_ne.mpr h2
      simp [objInsert, h, List.lookup, hb, ih]

/-- The normalisation of `extractToolInvocations` guarantees: in every
returned element, a truthy `function.arguments` is a string. -/
theorem normalizeTc_arguments (tc : Json) :
    ∀ f, objGetJs (normalizeTc tc) keyFunction = some f →
    ∀ a, objGetJs f keyArguments = some a → jsTruthy a = true → isStrJson a = true := by
  intro f hf a ha hta
  cases h0 : objGetJs tc keyFunction with
  | none =>
    simp only [normalizeTc, h0] at hf
    cases hf
  | some f0 =>
    by_cases ht0 : jsTruthy f0 = true
    · cases h1 : objGetJs f0 keyArguments with
      | none =>
        simp only [normalizeTc, h0, ht0, if_true, h1] at hf
        injection hf with hff
        subst hff
        rw [h1] at ha
        cases ha
      | some a0 =>
        by_cases hta0 : jsTruthy a0 = true
        · by_cases hsa : isStrJson a0 = true
          · simp only [normalizeTc, h0, ht0, if_true, h1, hta0, hsa] at hf
            injection hf with hff
            subst hff
            rw [h1] at ha
            injection ha with haa
            subst haa
            exact hsa
          · simp only [normalizeTc, h0, ht0, if_true, h1, hta0, hsa, Bool.false_eq_true,
              if_false] at hf
            cases tc with
            | obj kvs =>
              simp only [objSet, objGetJs, lookup_objInsert] at hf
              injection hf with hff
              subst hff
              cases f0 with
              | obj kvs0 =>
                simp only [objSet, objGetJs, lookup_objInsert] at ha
                injection ha with haa
                subst haa
                rfl
              | null => simp [objGetJs] at ha
              | bool b => simp [objGetJs] at ha
              | num n => simp [objGetJs] at ha
              | str s => simp [objGetJs] at ha
              | arr xs => simp [objGetJs] at ha
            | null => simp [objGetJs] at h0
            | bool b => simp [objGetJs] at h0
            | num n => simp [objGetJs] at h0
            | str s => simp [objGetJs] at h0
            | arr xs => simp [objGetJs] at h0
        · simp only [normalizeTc, h0, ht0, if_true, h1, hta0, Bool.false_eq_true, if_false] at hf
          injection hf with hff
          subst hff
          rw [h1] at ha
          injection ha with haa
          subst haa
          exact absurd hta hta0
    · simp only [normalizeTc, h0, ht0, Bool.false_eq_true, if_false] at hf
      injection hf with hff
      subst hff
      cases f0 with
      | obj kvs0 => exact absurd rfl ht0
      | null => simp [objGetJs] at ha
      | bool b => simp [objGetJs] at ha
      | num n => simp [objGetJs] at ha
      | str s => simp [objGetJs] at ha
      | arr xs => simp [objGetJs] at ha

/-- C5 (counterexample): a falsy `arguments` value (here the number `0`)
is not re-serialised to a string — the guard `if (func.arguments)` skips
it — so extraction can return a non-string `arguments`. -/
theorem c5_counterexample :
    extractToolInvocations 200000 0 c5Input =
      .ok (some [Json.obj [(keyFunction,
        Json.obj [("name", Json.str "f"), (keyArguments, Json.num 0)])]]) ∧
    isStrJson (Json.num 0) = false := ⟨rfl, rfl⟩

/-- C5 (amended): for every invocation in a list returned by
`extractToolInvocations`, a TRUTHY `function.arguments` value is always a
JSON-encoded string (objects and other truthy non-strings are
re-serialised at extraction time); falsy values (`null`, `false`, `0`)
are left as they were parsed. -/
theorem c5_truthy_arguments_normalized (scanLimit now : Nat) (text : String) (l : List Json)
    (h : extractToolInvocations scanLimit now text = .ok (some l)) :
    ∀ v ∈ l, ∀ f, objGetJs v keyFunction = some f →
      ∀ a, objGetJs f keyArguments = some a → jsTruthy a = true → isStrJson a = true := by
  intro v hv f hf a ha hta
  by_cases ht : text = ""
  · rw [extractToolInvocations, if_pos ht] at h; cases h
  · simp only [extractToolInvocations, if_neg ht] at h
    cases hj : jsonStrategies (text.toList.take scanLimit) with
    | some tc =>
      simp only [hj] at h
      injection h with h2
      injection h2 with h3
      rw [← h3] at hv
      obtain ⟨tc0, htc0, hvv⟩ := List.mem_map.mp hv
      rw [← hvv] at hf
      exact normalizeTc_arguments tc0 f hf a ha hta
    | none =>
      simp only [hj] at h
      rw [nlStage] at h
      rcases hms : nlFindAll ((text.toList.take scanLimit).length + 1)
          (text.toList.take scanLimit) with _ | ⟨m, _ | ⟨m1, _ | ⟨m2, ms3⟩⟩⟩
      · simp only [hms] at h; simp at h
      · simp only [hms] at h; simp at h
      · simp only [hms] at h; simp at h
      · simp only [hms] at h
        cases hp : jsonParseL (trimL m2) with
        | none => simp only [hp] at h; simp at h
        | some j =>
          simp only [hp] at h
          injection h with h2
          injection h2 with h3
          subst h3
          simp only [List.mem_singleton] at hv
          subst hv
          have hfv : objGetJs (Json.obj [("id", Json.str (genCallId now)),
              ("type", Json.str "function"),
              (keyFunction, Json.obj [("name", Json.str (strOfList (trimL m1))),
                (keyArguments, Json.str (strOfList (trimL m2)))])]) keyFunction =
              some (Json.obj [("name", Json.str (strOfList (trimL m1))),
                (keyArguments, Json.str (strOfList (trimL m2)))]) := rfl
          rw [hfv] at hf
          injection hf with hff
          subst hff
          have hav : objGetJs (Json.obj [("name", Json.str (strOfList (trimL m1))),
              (keyArguments, Json.str (strOfList (trimL m2)))]) keyArguments =
              some (Json.str (strOfList (trimL m2))) := rfl
          rw [hav] at ha
          injection ha with haa
          subst haa
          rfl

/-- C5 (witness): the example given in the specification — fenced JSON whose
`arguments` is a nested object is re-serialised to the string
`{"a":1}`. -/
theorem c5_witness :
    extractToolInvocations 200000 0 specToolText =
      .ok (some [Json.obj [("id", Json.str "call_1"), ("type", Json.str "function"),
        (keyFunction, Json.obj [("name", Json.str "f"),
          (keyArguments, Json.str "\x7b\"a\":1\x7d")])]]) ∧
    (∀ v ∈ [Json.obj [("id", Json.str "call_1"), ("type", Json.str "function"),
        (keyFunction, Json.obj [("name", Json.str "f"),
          (keyArguments, Json.str "\x7b\"a\":1\x7d")])]],
      ∀ f, objGetJs v keyFunction = some f →
      ∀ a, objGetJs f keyArguments = some a → jsTruthy a = true → isStrJson a = true) :=
  ⟨rfl, c5_truthy_arguments_normalized 200000 0 specToolText _ rfl⟩

/-- C6 (counterexample): on a fenced block whose `tool_calls` array is
empty, extraction returns the EMPTY list, not null — `[]` is truthy in
JavaScript, so the `toolCalls && Array.isArray(toolCalls)` guard
passes. -/
theorem c6_counterexample :
    extractToolInvocations 200000 0 c6Input = .ok (some []) := rfl

/-- C6 (amended): `extractToolInvocations` returns null or a list; the
list can be empty, but only when a fenced or brace-balanced JSON
candidate matched with a literally empty `tool_calls` array — the
natural-language fallback never produces an empty list. -/
theorem c6_empty_result_only_from_empty_array (scanLimit now : Nat) (text : String)
    (h : extractToolInvocations scanLimit now text = .ok (some [])) :
    jsonStrategies (text.toList.take scanLimit) = some [] := by
  by_cases ht : text = ""
  · rw [extractToolInvocations, if_pos ht] at h; cases h
  · simp only [extractToolInvocations, if_neg ht] at h
    cases hj : jsonStrategies (text.toList.take scanLimit) with
    | some tc =>
      simp only [hj] at h
      injection h with h2
      injection h2 with h3
      have htc : tc = [] := by
        cases tc with
        | nil => rfl
        | cons x xs => cases h3
      rw [htc]
    | none =>
      exfalso
      simp only [hj] at h
      rw [nlStage] at h
      rcases hms : nlFindAll ((text.toList.take scanLimit).length + 1)
          (text.toList.take scanLimit) with _ | ⟨m, _ | ⟨m1, _ | ⟨m2, ms3⟩⟩⟩
      · simp only [hms] at h; simp at h
      · simp only [hms] at h; simp at h
      · simp only [hms] at h; simp at h
      · simp only [hms] at h
        cases hp : jsonParseL (trimL m2) with
        | none => simp only [hp] at h; simp at h
        | some j => simp only [hp] at h; simp at h

/-- C6 (witness): the counterexample input instantiates the amended
claim. -/
theorem c6_witness :
    extractToolInvocations 200000 0 c6Input = .ok (some []) ∧
    jsonStrategies (c6Input.toList.take 200000) = some [] :=
  ⟨rfl, c6_empty_result_only_from_empty_array 200000 0 c6Input rfl⟩

end Zai

namespace Zai

/-! ## Claim C3: stripping versus extraction -/

theorem stripScan_id : ∀ (fuel : Nat) (l : List Char),
    scanHasAccepted fuel l = false → stripScan fuel l = l := by
  intro fuel
  induction fuel with
  | zero => intro l _; cases l <;> rfl
  | succ n ih =>
    intro l h
    cases l with
    | nil => rfl
    | cons c rest =>
      rw [scanHasAccepted] at h
      rw [stripScan]
      by_cases hc : c = '\x7b'
      · rw [if_pos hc] at h ⊢
        cases hb : scanBalanced 1 false false rest with
        | some n2 =>
          simp only [hb] at h ⊢
          cases hp : jsonParseL (c :: rest.take n2) with
          | some v =>
            simp only [hp] at h ⊢
            by_cases hk : (objGetJs v keyToolCalls).isSome = true
            · rw [if_pos hk] at h; cases h
            · rw [if_neg hk] at h ⊢
              rw [ih rest h]
          | none =>
            simp only [hp] at h ⊢
            rw [ih rest h]
        | none =>
          simp only [hb] at h ⊢
          rw [ih rest h]
      · rw [if_neg hc] at h ⊢
        rw [ih rest h]

end Zai

namespace Zai

theorem fenceStrip_id : ∀ (fuel : Nat) (l : List Char),
    (fenceListCaps fuel l).all (fun cap => !fenceAccept cap) = true → fenceStrip fuel l = l := by
  intro fuel
  induction fuel with
  | zero => intro l _; rfl
  | succ n ih =>
    intro l h
    rw [fenceListCaps] at h
    rw [fenceStrip]
    cases hsf : splitFirst ticksJson l with
    | none => rfl
    | some pp =>
      obtain ⟨pre, post⟩ := pp
      simp only [hsf] at h ⊢
      have hl : l = pre ++ ticksJson ++ post := splitFirst_sound hsf
      cases hfa : fenceAt (ticksJson ++ post) with
      | some fl =>
        obtain ⟨fullLen, cap⟩ := fl
        simp only [hfa] at h ⊢
        simp only [List.all_cons, Bool.and_eq_true, Bool.not_eq_true'] at h
        rw [if_neg (by simp [h.1])]
        rw [ih _ h.2]
        rw [List.append_assoc, List.take_append_drop, hl, List.append_assoc]
      | none =>
        simp only [hfa] at h ⊢
        rw [ih _ h]
        rw [List.append_assoc, List.take_append_drop, hl, List.append_assoc]

theorem jsWs_brace_false {c : Char} (h : jsWs c = true) : (c == '\x7b') = false := by
  cases hq : (c == '\x7b')
  · rfl
  · rw [eq_of_beq hq] at h
    exact absurd h (by decide)

theorem braceCount_append (a b : List Char) :
    braceCount (a ++ b) = braceCount a + braceCount b := by
  simp [braceCount, List.countP_append]

theorem braceCount_reverse (l : List Char) : braceCount l.reverse = braceCount l := by
  induction l with
  | nil => rfl
  | cons c rest ih =>
    rw [List.reverse_cons, braceCount_append]
    simp [braceCount, List.countP_cons] at ih ⊢

theorem braceCount_dropWhile_ws (l : List Char) :
    braceCount (l.dropWhile jsWs) = braceCount l := by
  induction l with
  | nil => rfl
  | cons c rest ih =>
    rw [List.dropWhile_cons]
    by_cases h : jsWs c = true
    · rw [if_pos h, ih]
      simp [braceCount, List.countP_cons, jsWs_brace_false h]
    · rw [if_neg h]

/-- Trimming removes only whitespace, so it preserves the open-brace count. -/
theorem braceCount_trimL (l : List Char) : braceCount (trimL l) = braceCount l := by
  rw [trimL, braceCount_reverse, braceCount_dropWhile_ws, braceCount_reverse,
    braceCount_dropWhile_ws]

theorem braceCount_drop_le (l : List Char) (n : Nat) :
    braceCount (l.drop n) ≤ braceCount l := by
  conv_rhs => rw [← List.take_append_drop n l]
  rw [braceCount_append]
  omega

/-- The balanced scan only deletes spans, each starting with an open brace:
its output has at most as many open braces as its input, strictly fewer
when a span is accepted. -/
theorem stripScan_braceCount : ∀ (fuel : Nat) (l : List Char),
    braceCount (stripScan fuel l) ≤ braceCount l ∧
      (scanHasAccepted fuel l = true → braceCount (stripScan fuel l) < braceCount l) := by
  intro fuel
  induction fuel with
  | zero =>
    intro l
    refine ⟨?_, ?_⟩
    · cases l <;> exact le_rfl
    · intro h; simp [scanHasAccepted] at h
  | succ n ih =>
    intro l
    cases l with
    | nil =>
      refine ⟨le_rfl, ?_⟩
      intro h; simp [scanHasAccepted] at h
    | cons c rest =>
      rw [stripScan, scanHasAccepted]
      by_cases hc : c = '\x7b'
      · rw [if_pos hc, if_pos hc]
        have hcons : ∀ x : List Char, braceCount (c :: x) = braceCount x + 1 := by
          intro x; rw [hc]; simp [braceCount, List.countP_cons]
        cases hb : scanBalanced 1 false false rest with
        | some n2 =>
          simp only [hb]
          cases hp : jsonParseL (c :: rest.take n2) with
          | some v =>
            simp only [hp]
            by_cases hk : (objGetJs v keyToolCalls).isSome = true
            · rw [if_pos hk, if_pos hk]
              have h1 := (ih (rest.drop n2)).1
              have h2 := braceCount_drop_le rest n2
              rw [hcons]
              exact ⟨by omega, fun _ => by omega⟩
            · rw [if_neg hk, if_neg hk]
              have h1 := (ih rest).1
              have h2 := (ih rest).2
              rw [hcons, hcons]
              exact ⟨by omega, fun hx => by have := h2 hx; omega⟩
          | none =>
            simp only [hp]
            have h1 := (ih rest).1
            have h2 := (ih rest).2
            rw [hcons, hcons]
            exact ⟨by omega, fun hx => by have := h2 hx; omega⟩
        | none =>
          simp only [hb]
          have h1 := (ih rest).1
          have h2 := (ih rest).2
          rw [hcons, hcons]
          exact ⟨by omega, fun hx => by have := h2 hx; omega⟩
      · rw [if_neg hc, if_neg hc]
        have hcb : (c == '\x7b') = false := by
          cases hq : (c == '\x7b')
          · rfl
          · exact absurd (eq_of_beq hq) hc
        have hcons : ∀ x : List Char, braceCount (c :: x) = braceCount x := by
          intro x; simp [braceCount, List.countP_cons, hcb]
        have h1 := (ih rest).1
        have h2 := (ih rest).2
        rw [hcons, hcons]
        exact ⟨h1, h2⟩

/-- An open brace at offset `k` survives into any `take` reaching past
it. -/
theorem braceCount_take_pos {l : List Char} {k m : Nat} {rest : List Char}
    (hdd : l.drop k = '\x7b' :: rest) : 1 ≤ braceCount (l.take (k + 1 + m)) := by
  have hlen : k ≤ l.length := by
    have hln := congrArg List.length hdd
    rw [List.length_drop] at hln
    simp only [List.length_cons] at hln
    omega
  have hsplit : l = l.take k ++ ('\x7b' :: rest) := by
    conv_lhs => rw [← List.take_append_drop k l]
    rw [hdd]
  have hA : (l.take k).length = k := by
    rw [List.length_take]; exact min_eq_left hlen
  conv_rhs => rw [hsplit]
  rw [List.take_append_eq_append_take, braceCount_append, hA]
  have h1 : k + 1 + m - k = m + 1 := by omega
  rw [h1, List.take_succ_cons]
  have h2 : braceCount ('\x7b' :: rest.take m) = braceCount (rest.take m) + 1 := by
    simp [braceCount, List.countP_cons]
  omega

/-- The full text of a fence match contains its open brace. -/
theorem fenceAt_take_brace {l : List Char} {fullLen : Nat} {cap : List Char}
    (h : fenceAt l = some (fullLen, cap)) : 1 ≤ braceCount (l.take fullLen) := by
  by_cases hp : ticksJson.isPrefixOf l = true
  · simp only [fenceAt, hp, if_true] at h
    cases hd : (l.drop 7).drop ((l.drop 7).takeWhile jsWs).length with
    | nil =>
      simp only [hd] at h
      exact Option.noConfusion h
    | cons c rest =>
      simp only [hd] at h
      by_cases hc : c = '\x7b'
      · rw [if_pos hc] at h
        cases hfc : fenceClose rest with
        | none =>
          simp only [hfc] at h
          exact Option.noConfusion h
        | some ab =>
          obtain ⟨capTail, fullTail⟩ := ab
          simp only [hfc, Option.some.injEq, Prod.mk.injEq] at h
          obtain ⟨hfl, _⟩ := h
          have hdd : l.drop (7 + ((l.drop 7).takeWhile jsWs).length) = '\x7b' :: rest := by
            rw [← List.drop_drop, hd, hc]
          rw [← hfl]
          exact braceCount_take_pos hdd
      · rw [if_neg hc] at h
        exact Option.noConfusion h
  · simp only [fenceAt] at h
    rw [if_neg hp] at h
    exact Option.noConfusion h

/-- The fence replacement only deletes full matches, each containing an
open brace: at most as many open braces come out as went in, strictly
fewer when some capture is accepted. -/
theorem fenceStrip_braceCount : ∀ (fuel : Nat) (l : List Char),
    braceCount (fenceStrip fuel l) ≤ braceCount l ∧
      ((fenceListCaps fuel l).all (fun cap => !fenceAccept cap) = false →
        braceCount (fenceStrip fuel l) < braceCount l) := by
  intro fuel
  induction fuel with
  | zero =>
    intro l
    refine ⟨le_rfl, ?_⟩
    intro h; simp [fenceListCaps] at h
  | succ n ih =>
    intro l
    rw [fenceStrip, fenceListCaps]
    cases hsf : splitFirst ticksJson l with
    | none =>
      simp only [hsf]
      exact ⟨le_rfl, by intro h; simp at h⟩
    | some pp =>
      obtain ⟨pre, post⟩ := pp
      simp only [hsf]
      have hl : l = pre ++ ticksJson ++ post := splitFirst_sound hsf
      have hbcl : braceCount l = braceCount pre + braceCount (ticksJson ++ post) := by
        rw [hl, List.append_assoc, braceCount_append]
      cases hfa : fenceAt (ticksJson ++ post) with
      | some fl =>
        obtain ⟨fullLen, cap⟩ := fl
        simp only [hfa]
        have hocc : braceCount (ticksJson ++ post) =
            braceCount ((ticksJson ++ post).take fullLen) +
              braceCount ((ticksJson ++ post).drop fullLen) := by
          conv_lhs => rw [← List.take_append_drop fullLen (ticksJson ++ post)]
          rw [braceCount_append]
        have hrec1 := (ih ((ticksJson ++ post).drop fullLen)).1
        by_cases hacc : fenceAccept cap = true
        · rw [if_pos hacc]
          have htb := fenceAt_take_brace hfa
          have hout : braceCount (pre ++ [] ++ fenceStrip n ((ticksJson ++ post).drop fullLen)) =
              braceCount pre + braceCount (fenceStrip n ((ticksJson ++ post).drop fullLen)) := by
            rw [braceCount_append, braceCount_append]
            simp [braceCount]
          constructor
          · rw [hout, hbcl]; omega
          · intro _; rw [hout, hbcl]; omega
        · rw [if_neg hacc]
          have hout : braceCount (pre ++ (ticksJson ++ post).take fullLen ++
                fenceStrip n ((ticksJson ++ post).drop fullLen)) =
              braceCount pre + braceCount ((ticksJson ++ post).take fullLen) +
                braceCount (fenceStrip n ((ticksJson ++ post).drop fullLen)) := by
            rw [braceCount_append, braceCount_append]
          constructor
          · rw [hout, hbcl]; omega
          · intro hfalse
            have hacc2 : fenceAccept cap = false := by
              cases hq : fenceAccept cap
              · rfl
              · exact absurd hq hacc
            rw [List.all_cons, hacc2] at hfalse
            simp only [Bool.not_false, Bool.true_and] at hfalse
            have := (ih ((ticksJson ++ post).drop fullLen)).2 hfalse
            rw [hout, hbcl]; omega
      | none =>
        simp only [hfa]
        have hocc : braceCount (ticksJson ++ post) =
            braceCount ((ticksJson ++ post).take 1) +
              braceCount ((ticksJson ++ post).drop 1) := by
          conv_lhs => rw [← List.take_append_drop 1 (ticksJson ++ post)]
          rw [braceCount_append]
        have hrec1 := (ih ((ticksJson ++ post).drop 1)).1
        have hout : braceCount (pre ++ (ticksJson ++ post).take 1 ++
              fenceStrip n ((ticksJson ++ post).drop 1)) =
            braceCount pre + braceCount ((ticksJson ++ post).take 1) +
              braceCount (fenceStrip n ((ticksJson ++ post).drop 1)) := by
          rw [braceCount_append, braceCount_append]
        constructor
        · rw [hout, hbcl]; omega
        · intro hfalse
          have := (ih ((ticksJson ++ post).drop 1)).2 hfalse
          rw [hout, hbcl]; omega

/-- C3 (counterexample): on the input `{"tool_calls": null}`, extraction
returns null (extraction demands a truthy ARRAY `tool_calls`, and null is
falsy), yet stripping deletes the whole object (it only demands the
`tool_calls` KEY), so the residual text is not the trimmed input. -/
theorem c3_counterexample :
    extractToolInvocations 200000 0 c3Input = .ok none ∧
    removeToolJsonContent c3Input ≠ strOfList (trimL c3Input.toList) := by
  refine ⟨rfl, ?_⟩
  intro h
  exact absurd (congrArg String.toList h) (by decide)

/-- C3 (amended): stripping and extraction share the fence and
brace-balance span finders, but their acceptance predicates differ:
stripping deletes any candidate span whose parse has a `tool_calls` KEY,
while extraction requires a truthy `tool_calls` ARRAY (and scans only a
bounded prefix).  `removeToolJsonContent` is the identity (up to trimming)
EXACTLY when no fence capture and no balanced span carries the key: if all
candidates are rejected nothing is deleted, and conversely any accepted
span takes its open brace with it, which trimming cannot restore —
extraction returning null is NOT sufficient, as the counterexample
shows. -/
theorem c3_strip_identity_without_toolcall_spans (text : String) :
    removeToolJsonContent text = strOfList (trimL text.toList) ↔
      ((fenceListCaps (text.toList.length + 1) text.toList).all
          (fun cap => !fenceAccept cap) = true ∧
        scanHasAccepted (text.toList.length + 1) text.toList = false) := by
  constructor
  · intro h
    have hlist := congrArg String.toList h
    rw [removeToolJsonContent] at hlist
    simp only [toList_strOfList] at hlist
    have hbc := congrArg braceCount hlist
    rw [braceCount_trimL, braceCount_trimL] at hbc
    by_cases hA : (fenceListCaps (text.toList.length + 1) text.toList).all
        (fun cap => !fenceAccept cap) = true
    · refine ⟨hA, ?_⟩
      rw [fenceStrip_id _ _ hA] at hbc
      cases hB : scanHasAccepted (text.toList.length + 1) text.toList
      · rfl
      · exfalso
        have hlt := (stripScan_braceCount (text.toList.length + 1) text.toList).2 hB
        omega
    · exfalso
      have hAf : (fenceListCaps (text.toList.length + 1) text.toList).all
          (fun cap => !fenceAccept cap) = false := by
        cases hq : (fenceListCaps (text.toList.length + 1) text.toList).all
            (fun cap => !fenceAccept cap)
        · rfl
        · exact absurd hq hA
      have hflt := (fenceStrip_braceCount (text.toList.length + 1) text.toList).2 hAf
      have hsle := (stripScan_braceCount
        ((fenceStrip (text.toList.length + 1) text.toList).length + 1)
        (fenceStrip (text.toList.length + 1) text.toList)).1
      omega
  · rintro ⟨h1, h2⟩
    rw [removeToolJsonContent]
    rw [fenceStrip_id _ _ h1]
    rw [stripScan_id _ _ h2]

/-- C3 (witness): plain text without tool-call JSON strips to its own
trim. -/
theorem c3_witness :
    removeToolJsonContent c3SettledInput = strOfList (trimL c3SettledInput.toList) :=
  (c3_strip_identity_without_toolcall_spans c3SettledInput).mpr ⟨by decide, by decide⟩

end Zai


namespace Zai

/-! ## Claim C2: chunking invariance of the SSE decoder -/


theorem decodeChunk_append (a : List Nat) :
    ∀ (st : Utf8State) (b : List Nat),
      decodeChunk st (a ++ b) =
        ((decodeChunk (decodeChunk st a).1 b).1,
          (decodeChunk st a).2 ++ (decodeChunk (decodeChunk st a).1 b).2) := by
  induction a with
  | nil => intro st b; simp [decodeChunk]
  | cons x xs ih =>
    intro st b
    simp only [List.cons_append, decodeChunk, List.append_eq]
    rw [ih]
    simp [List.append_assoc]

theorem splitNl_append (x : List Char) :
    ∀ (y : List Char),
      splitNl (x ++ y) =
        (splitNl x).dropLast ++ consHead ((splitNl x).getLastD []) (splitNl y) := by
  induction x with
  | nil =>
    intro y
    cases hs : splitNl y with
    | nil => exact absurd hs (splitNl_ne_nil y)
    | cons s ss => simp [splitNl, consHead, hs]
  | cons c rest ih =>
    intro y
    by_cases h : c = '\n'
    · subst h
      rw [List.cons_append, splitNl, if_pos rfl, splitNl, if_pos rfl]
      rw [ih y, List.getLastD_cons, List.dropLast_cons_of_ne_nil (splitNl_ne_nil rest)]
      simp
    · rw [List.cons_append, splitNl, if_neg h, splitNl, if_neg h]
      rw [ih y]
      cases hs : splitNl rest with
      | nil => exact absurd hs (splitNl_ne_nil rest)
      | cons s ss =>
        cases hsy : splitNl y with
        | nil => exact absurd hsy (splitNl_ne_nil y)
        | cons t ts =>
          cases ss with
          | nil => simp [consHead, List.getLastD_cons]
          | cons u us =>
            simp [consHead, List.getLastD_cons, List.dropLast_cons_of_ne_nil]

theorem splitNl_no_nl {l : List Char} (h : '\n' ∉ l) : splitNl l = [l] := by
  induction l with
  | nil => rfl
  | cons c rest ih =>
    simp only [List.mem_cons, not_or] at h
    rw [splitNl, if_neg (fun e => h.1 e.symm), ih h.2]

theorem no_nl_splitNl_getLastD (l : List Char) : '\n' ∉ (splitNl l).getLastD [] := by
  induction l with
  | nil => simp [splitNl]
  | cons c rest ih =>
    rw [splitNl]
    by_cases h : c = '\n'
    · rw [if_pos h, List.getLastD_cons]
      exact ih
    · rw [if_neg h]
      cases hs : splitNl rest with
      | nil => exact absurd hs (splitNl_ne_nil rest)
      | cons s ss =>
        rw [hs] at ih
        cases ss with
        | nil =>
          simp only [List.getLastD_cons, List.getLastD_nil] at ih ⊢
          intro hmem
          rcases List.mem_cons.mp hmem with he | hm
          · exact h he.symm
          · exact ih hm
        | cons u us =>
          simpa [List.getLastD_cons] using ih

theorem feed_line_split (buf d1 d2 : List Char) (hb : '\n' ∉ buf) :
    ((splitNl (buf ++ d1)).dropLast).filterMap parseSSELine ++
      ((splitNl ((splitNl (buf ++ d1)).getLastD [] ++ d2)).dropLast).filterMap parseSSELine =
    ((splitNl (buf ++ d1 ++ d2)).dropLast).filterMap parseSSELine := by
  have hg : '\n' ∉ (splitNl (buf ++ d1)).getLastD [] := no_nl_splitNl_getLastD _
  have hsmall : splitNl ((splitNl (buf ++ d1)).getLastD [] ++ d2) =
      consHead ((splitNl (buf ++ d1)).getLastD []) (splitNl d2) := by
    rw [splitNl_append, splitNl_no_nl hg]
    simp [List.getLastD_cons, consHead]
  rw [hsmall, splitNl_append (buf ++ d1) d2]
  cases hsd : splitNl d2 with
  | nil => exact absurd hsd (splitNl_ne_nil d2)
  | cons t ts =>
    simp only [consHead, List.dropLast_append_cons, List.filterMap_append]



theorem stripBom_append (c : Char) (cs y : List Char) :
    stripBom ((c :: cs) ++ y) = stripBom (c :: cs) ++ y := by
  rw [List.cons_append, stripBom, stripBom]
  by_cases h : c = Char.ofNat 0xFEFF
  · rw [if_pos h, if_pos h]
  · rw [if_neg h, if_neg h, List.cons_append]

theorem sseRun_eq (chunks : List (List Nat)) :
    ∀ (u : Utf8State) (bom : Bool) (buf : List Char), '\n' ∉ buf →
      sseRun ⟨u, bom, buf⟩ chunks =
        ((splitNl (buf ++ (if bom then (decodeChunk u chunks.flatten).2
          else stripBom (decodeChunk u chunks.flatten).2))).dropLast).filterMap parseSSELine := by
  induction chunks with
  | nil =>
    intro u bom buf hb
    cases bom <;> simp [sseRun, decodeChunk, stripBom, splitNl_no_nl hb]
  | cons c cs ih =>
    intro u bom buf hb
    rw [sseRun]
    simp only [sseFeed, List.flatten_cons]
    rw [decodeChunk_append]
    cases bom with
    | true =>
      simp only [if_true]
      rw [ih _ true _ (no_nl_splitNl_getLastD _)]
      simp only [if_true]
      rw [← List.append_assoc]
      exact feed_line_split buf (decodeChunk u c).2 (decodeChunk (decodeChunk u c).1 cs.flatten).2 hb
    | false =>
      simp only [Bool.false_eq_true, if_false]
      cases hd : (decodeChunk u c).2 with
      | nil =>
        simp only [hd, List.append_nil, splitNl_no_nl hb, List.dropLast_single,
          List.filterMap_nil, List.nil_append, List.getLastD_cons, List.getLastD_nil]
        rw [ih _ false buf hb]
        simp
      | cons ch chs =>
        simp only [hd]
        rw [ih _ true _ (no_nl_splitNl_getLastD _)]
        simp only [if_true]
        rw [stripBom_append ch chs, stripBom]
        by_cases hc : ch = Char.ofNat 0xFEFF
        · rw [if_pos hc]
          rw [← List.append_assoc]
          exact feed_line_split buf chs _ hb
        · rw [if_neg hc]
          rw [← List.append_assoc]
          exact feed_line_split buf (ch :: chs) _ hb

theorem iterEvents_eq (chunks : List (List Nat)) :
    iterEvents chunks = sseEventsOf chunks.flatten := by
  rw [iterEvents, sseEventsOf]
  have h := sseRun_eq chunks {} false [] (by simp)
  simp only [Bool.false_eq_true, if_false, List.nil_append] at h
  exact h


/-- C2: for every logical SSE byte stream and every way of splitting it
into read chunks at arbitrary byte offsets (including splits inside a
line and inside a multi-byte character), the decoder produces the
identical event sequence: the incomplete trailing line (and trailing
partial character) is buffered across reads and only complete lines are
decoded. -/
theorem c2_chunking_invariance (cs1 cs2 : List (List Nat)) (h : cs1.flatten = cs2.flatten) :
    iterEvents cs1 = iterEvents cs2 := by
  rw [iterEvents_eq, iterEvents_eq, h]

/-- C2 (witness): one big read versus four reads splitting the stream in
the middle of a line and in the middle of the two-byte character `é`. -/
theorem c2_chunking_invariance_witness :
    c2Chunks1.flatten = c2Chunks2.flatten ∧ iterEvents c2Chunks1 = iterEvents c2Chunks2 :=
  ⟨by decide, c2_chunking_invariance c2Chunks1 c2Chunks2 (by decide)⟩

end Zai
